import Mathlib

/-!
# powerproto: the `build` and `tidy` sub-commands

A shallow embedding of `cmd/powerproto/subcommands/build/command.go` and
`cmd/powerproto/subcommands/tidy/command.go`.

Both commands are sequential glue around calls into other packages
(`bootstraps`, `configs`, `util`, `pluginmanager`, the logger, `os`,
`path/filepath`).  Those calls are taken as parameters (the fields of
`BuildEnv` and `TidyEnv`), returning what the Go functions return (value and
error as a pair).  A run of a command is its *trace*, the list of the calls it
made that the properties speak about, in program order, together with the way
the run ended.
-/

namespace PowerProto

/-! ## Shared data -/

/-- A Go `error` value that is not nil, carried as its message. -/
abbrev Err := String

/-- A Go `time.Duration`: a number of nanoseconds. -/
abbrev Duration := Nat

/-- The Go constant `time.Second`. -/
def Second : Duration := 1000000000

/-- Modelled from the spec: the execution context.  `pkg/util/command` and
`pkg/consts` are not among the sources, so `WithDryRun`, `WithDisableAction`,
`WithPerCommandTimeout` and `WithDebugMode` are kept as the wrappers they are
(each returns a child of the context it is given); `background` is the context
cobra hands to `Run` (`cmd.Context()`), which carries none of the four
markers. -/
inductive Context where
  | background
  | withDryRun (parent : Context)
  | withDisableAction (parent : Context)
  | withPerCommandTimeout (parent : Context) (d : Duration)
  | withDebugMode (parent : Context)
  deriving DecidableEq, Repr

/-- Modelled from the spec: the context is marked dry-run. -/
def Context.isDryRun : Context → Bool
  | .background => false
  | .withDryRun _ => true
  | .withDisableAction p => p.isDryRun
  | .withPerCommandTimeout p _ => p.isDryRun
  | .withDebugMode p => p.isDryRun

/-- Modelled from the spec: the context carries the disable-action marker. -/
def Context.isDisableAction : Context → Bool
  | .background => false
  | .withDryRun p => p.isDisableAction
  | .withDisableAction _ => true
  | .withPerCommandTimeout p _ => p.isDisableAction
  | .withDebugMode p => p.isDisableAction

/-- Modelled from the spec: the context carries the debug-mode marker. -/
def Context.isDebugMode : Context → Bool
  | .background => false
  | .withDryRun p => p.isDebugMode
  | .withDisableAction p => p.isDebugMode
  | .withPerCommandTimeout p _ => p.isDebugMode
  | .withDebugMode _ => true

/-- Modelled from the spec: the per-command timeout the context carries, the
one attached last when several were. -/
def Context.perCommandTimeout : Context → Option Duration
  | .background => none
  | .withDryRun p => p.perCommandTimeout
  | .withDisableAction p => p.perCommandTimeout
  | .withPerCommandTimeout _ d => some d
  | .withDebugMode p => p.perCommandTimeout

/-- The levels `logger.LevelInfo` and `logger.LevelDebug`. -/
inductive Level where
  | info
  | debug
  deriving DecidableEq, Repr

/-- A `pluginmanager.PluginManager` value: an interface, possibly nil. -/
abbrev PluginManager := Option Nat

/-- The value `configs.LoadConfigItems` returns (the items declared in one
config file); its inside plays no part in either command. -/
abbrev ConfigItems := List String

/-- The calls a run makes, in the order it makes them.  A call that returns an
error carries it (`none` is a nil error). -/
inductive Event where
  | logInfo (format : String) (args : List String)
  | logWarn (format : String) (args : List String)
  | logFatal (fields : List (String × String)) (format : String) (args : List String)
  | setLogLevel (level : Level)
  | stepTidyConfig (ctx : Context) (targets : List String) (err : Option Err)
  | compile (ctx : Context) (targets : List String) (err : Option Err)
  | getwd (dir : String) (err : Option Err)
  | listConfigPaths (dir : String) (paths : List String)
  | newPluginManager (pm : PluginManager) (err : Option Err)
  | isFileExists (path : String) (exists_ : Bool) (err : Option Err)
  | tidyCall (ctx : Context) (pm : PluginManager) (path : String)
  | getProgressBar (ctx : Context) (count : Nat)
  | progressLabel (label : String)
  | progressIncr
  | progressWait
  | stepTidyConfigFile (ctx : Context) (pm : PluginManager) (path : String) (err : Option Err)
  | loadConfigItems (path : String) (items : ConfigItems) (err : Option Err)
  | stepInstallProtoc (ctx : Context) (pm : PluginManager) (items : ConfigItems) (err : Option Err)
  | stepInstallRepositories (ctx : Context) (pm : PluginManager) (items : ConfigItems)
      (err : Option Err)
  | stepInstallPlugins (ctx : Context) (pm : PluginManager) (items : ConfigItems)
      (err : Option Err)
  | tidyReturn (path : String) (err : Option Err)
  deriving DecidableEq, Repr

/-- How a run of a command ends: `Run` returned, the process was ended by
`LogFatal`, a nil dereference panicked, or cobra refused the command line
before calling `Run`. -/
inductive Outcome where
  | returned
  | exited
  | panicked
  | usage
  deriving DecidableEq, Repr

/-- A run: the calls made and how it ended. -/
structure Run where
  trace : List Event
  outcome : Outcome
  deriving DecidableEq, Repr

/-- The run that makes the call `e` and goes on as `rest`. -/
def Run.cons (e : Event) (rest : Run) : Run :=
  ⟨e :: rest.trace, rest.outcome⟩

/-- The `logger.Logger` a command is built with.  It is an interface whose
implementation is not among the sources; the one thing the control flow of the
commands depends on is whether `LogFatal` returns to its caller or ends the
process. -/
structure Logger where
  fatalReturns : Bool
  deriving DecidableEq, Repr

/-- The call `log.LogFatal(fields, format, args...)` followed by `rest`. -/
def Logger.LogFatal (log : Logger) (fields : List (String × String)) (format : String)
    (args : List String) (rest : Run) : Run :=
  if log.fatalReturns then Run.cons (.logFatal fields format args) rest
  else ⟨[.logFatal fields format args], .exited⟩

/-! ## Command lines and flags

cobra and pflag are libraries.  What they do for the two commands is: a flag
registered with `BoolVarP`/`DurationVarP` binds a variable, a long name and a
short name; parsing walks the flags written on the command line, in order, and
stores each value in the variable its flag binds; a flag that is not
registered, or a value of the wrong type, is an error and `Run` is not
called. -/

/-- How the command line names a flag: `--name` or `-n`. -/
inductive FlagRef where
  | long (name : String)
  | short (name : String)
  deriving DecidableEq, Repr

/-- The value a flag is given (a bare boolean flag is given `true`). -/
inductive FlagValue where
  | bool (b : Bool)
  | duration (d : Duration)
  deriving DecidableEq, Repr

/-- A registered flag: the variable it binds, its long and short name, its
default value and its usage text. -/
structure Flag (Var : Type) where
  target : Var
  name : String
  shorthand : String
  value : FlagValue
  usage : String

/-- The flag is the one the command line names. -/
def Flag.isNamedBy {Var : Type} (f : Flag Var) : FlagRef → Bool
  | .long n => f.name == n
  | .short s => f.shorthand == s

/-- A command line after tokenising: the flags written, in order, and the
positional arguments. -/
structure CommandLine where
  flags : List (FlagRef × FlagValue)
  args : List String

/-- Parsing: every flag written must be registered and is stored, in order, in
the variable it binds. -/
def parseFlags {Var S : Type} (registered : List (Flag Var))
    (set : Var → FlagValue → S → Option S) : List (FlagRef × FlagValue) → S → Option S
  | [], s => some s
  | (r, v) :: rest, s =>
    match registered.find? (fun f => f.isNamedBy r) with
    | none => none
    | some f =>
      match set f.target v s with
      | none => none
      | some s1 => parseFlags registered set rest s1

/-! ## The build command -/

/-- The variables `recursive`, `dryRun` and `postScriptEnabled` of
`CommandBuild`. -/
inductive BuildVar where
  | recursive
  | dryRun
  | postScriptEnabled
  deriving DecidableEq, Repr

/-- The values of the three variables. -/
structure BuildVars where
  recursive : Bool
  dryRun : Bool
  postScriptEnabled : Bool
  deriving DecidableEq, Repr

/-- The values the variables are declared with (`var x bool`). -/
def BuildVars.initial : BuildVars := ⟨false, false, false⟩

/-- Storing a parsed value in a variable; the three variables are booleans. -/
def BuildVars.set : BuildVar → FlagValue → BuildVars → Option BuildVars
  | .recursive, .bool b, v => some { v with recursive := b }
  | .dryRun, .bool b, v => some { v with dryRun := b }
  | .postScriptEnabled, .bool b, v => some { v with postScriptEnabled := b }
  | _, .duration _, _ => none

/-- The flags `CommandBuild` registers (`flags.BoolVarP`, twice). -/
def buildFlags : List (Flag BuildVar) :=
  [ ⟨.recursive, "recursive", "r", .bool BuildVars.initial.recursive,
      "whether to recursively traverse all child folders"⟩,
    ⟨.postScriptEnabled, "postScriptEnabled", "p", .bool BuildVars.initial.postScriptEnabled,
      "when this flag is attached, it will allow the execution of postActions and postShell"⟩ ]

/-- What `os.Stat` tells about a path that `Run` looks at. -/
structure FileInfo where
  isDir : Bool
  deriving DecidableEq, Repr

/-- The calls of the build command into `path/filepath`, `os`, `util` and
`bootstraps`, each returning what the Go function returns. -/
structure BuildEnv where
  abs : String → String × Option Err
  stat : String → Option FileInfo × Option Err
  getFilesWithExtRecursively : String → String → List String × Option Err
  getFilesWithExt : String → String → List String × Option Err
  stepTidyConfig : Context → List String → Option Err
  compile : Context → List String → Option Err

/-- The context `Run` builds from the flags. -/
def buildContext (vars : BuildVars) : Context :=
  let ctx := Context.background
  let ctx := if vars.dryRun then Context.withDryRun ctx else ctx
  if !vars.postScriptEnabled then Context.withDisableAction ctx else ctx

/-- The text logged when a build succeeds. -/
def buildSucceed : String := "succeed! you are ready to go :)"

/-- The end of `Run`, from `if len(targets) == 0` on. -/
def buildTargets (log : Logger) (env : BuildEnv) (ctx : Context) (targets : List String) : Run :=
  if targets.length = 0 then
    ⟨[.logWarn "no file to compile" []], .returned⟩
  else
    match env.stepTidyConfig ctx targets with
    | some err =>
      Run.cons (.stepTidyConfig ctx targets (some err)) <|
        log.LogFatal [] "failed to tidy config: %+v" [err] ⟨[], .returned⟩
    | none =>
      Run.cons (.stepTidyConfig ctx targets none) <|
        let done : Run := ⟨[.logInfo buildSucceed []], .returned⟩
        match env.compile ctx targets with
        | some err =>
          Run.cons (.compile ctx targets (some err)) <|
            log.LogFatal [] "failed to compile: %+v" [err] done
        | none => Run.cons (.compile ctx targets none) done

/-- The targets of a directory, and the rest of `Run`. -/
def buildDir (log : Logger) (env : BuildEnv) (ctx : Context) (recursive : Bool)
    (target : String) : Run :=
  Run.cons (.logInfo "search proto files..." []) <|
    if recursive then
      match env.getFilesWithExtRecursively target ".proto" with
      | (targets, some err) =>
        log.LogFatal [] "failed to walk directory: %s" [err] (buildTargets log env ctx targets)
      | (targets, none) => buildTargets log env ctx targets
    else
      match env.getFilesWithExt target ".proto" with
      | (targets, some err) =>
        log.LogFatal [] "failed to walk directory: %s" [err] (buildTargets log env ctx targets)
      | (targets, none) => buildTargets log env ctx targets

/-- The part of `Run` after `os.Stat`: `fileInfo.IsDir()` panics on the nil
`fileInfo` that comes with an error. -/
def buildStat (log : Logger) (env : BuildEnv) (ctx : Context) (recursive : Bool)
    (target : String) (fileInfo : Option FileInfo) : Run :=
  match fileInfo with
  | none => ⟨[], .panicked⟩
  | some fi =>
    if fi.isDir then buildDir log env ctx recursive target
    else buildTargets log env ctx ([] ++ [target])

/-- The function `Run` of the build command, on its one argument. -/
def buildRun (log : Logger) (env : BuildEnv) (vars : BuildVars) (arg : String) : Run :=
  let ctx := buildContext vars
  let afterAbs : String → Run := fun target =>
    match env.stat target with
    | (fileInfo, some err) =>
      log.LogFatal [("target", target)] "failed to stat target: %s" [err]
        (buildStat log env ctx vars.recursive target fileInfo)
    | (fileInfo, none) => buildStat log env ctx vars.recursive target fileInfo
  match env.abs arg with
  | (target, some err) =>
    log.LogFatal [] "failed to abs target path: %s" [err] (afterAbs target)
  | (target, none) => afterAbs target

/-- The build command on a command line: the flags are parsed,
`cobra.ExactArgs(1)` is checked, and `Run` is called. -/
def CommandBuild (log : Logger) (env : BuildEnv) (cl : CommandLine) : Run :=
  match parseFlags buildFlags BuildVars.set cl.flags BuildVars.initial with
  | none => ⟨[], .usage⟩
  | some vars =>
    match cl.args with
    | [arg] => buildRun log env vars arg
    | _ => ⟨[], .usage⟩

/-! ## The tidy command

The tidy command calls the same functions again and again, on a file system
that the calls themselves change, so here a call sees the history of the run:
every function of `TidyEnv` that reads or changes the world takes the list of
the events before it. -/

/-- The calls of the tidy command into `path/filepath`, `os`, `configs`,
`pluginmanager`, `util` and `bootstraps`, each returning what the Go function
returns; `mapOrder` is the order in which `range` walks the keys of a map. -/
structure TidyEnv where
  abs : String → String × Option Err
  getwd : String × Option Err
  listConfigPaths : String → List String
  newPluginManager : PluginManager × Option Err
  isFileExists : List Event → String → Bool × Option Err
  stepTidyConfigFile : List Event → Context → PluginManager → String → Option Err
  loadConfigItems : List Event → String → ConfigItems × Option Err
  stepInstallProtoc : List Event → Context → PluginManager → ConfigItems → Option Err
  stepInstallRepositories : List Event → Context → PluginManager → ConfigItems → Option Err
  stepInstallPlugins : List Event → Context → PluginManager → ConfigItems → Option Err
  mapOrder : List String → List String

/-- The function `tidy`, called after the events `h`: the calls it makes and
the error it returns (`none` is nil). -/
def tidy (env : TidyEnv) (h : List Event) (ctx : Context) (pluginManager : PluginManager)
    (configFilePath : String) : List Event × Option Err :=
  let t0 := [Event.getProgressBar ctx 1, Event.progressLabel "tidy config"]
  match env.stepTidyConfigFile (h ++ t0) ctx pluginManager configFilePath with
  | some err => (t0 ++ [.stepTidyConfigFile ctx pluginManager configFilePath (some err)], some err)
  | none =>
    let t1 := t0 ++ [.stepTidyConfigFile ctx pluginManager configFilePath none,
      .progressIncr, .progressWait]
    match env.loadConfigItems (h ++ t1) configFilePath with
    | (configItems, some err) =>
      (t1 ++ [.loadConfigItems configFilePath configItems (some err)], some err)
    | (configItems, none) =>
      let t2 := t1 ++ [.loadConfigItems configFilePath configItems none]
      match env.stepInstallProtoc (h ++ t2) ctx pluginManager configItems with
      | some err => (t2 ++ [.stepInstallProtoc ctx pluginManager configItems (some err)], some err)
      | none =>
        let t3 := t2 ++ [.stepInstallProtoc ctx pluginManager configItems none]
        match env.stepInstallRepositories (h ++ t3) ctx pluginManager configItems with
        | some err =>
          (t3 ++ [.stepInstallRepositories ctx pluginManager configItems (some err)], some err)
        | none =>
          let t4 := t3 ++ [.stepInstallRepositories ctx pluginManager configItems none]
          match env.stepInstallPlugins (h ++ t4) ctx pluginManager configItems with
          | some err =>
            (t4 ++ [.stepInstallPlugins ctx pluginManager configItems (some err)], some err)
          | none => (t4 ++ [.stepInstallPlugins ctx pluginManager configItems none], none)

/-- The calls `tidy` has made when it calls `StepTidyConfigFile`. -/
def tidyTrace0 (ctx : Context) : List Event :=
  [Event.getProgressBar ctx 1, Event.progressLabel "tidy config"]

/-- The calls `tidy` has made when it calls `LoadConfigItems`. -/
def tidyTrace1 (ctx : Context) (pm : PluginManager) (path : String) : List Event :=
  tidyTrace0 ctx ++ [.stepTidyConfigFile ctx pm path none, .progressIncr, .progressWait]

/-- The calls `tidy` has made when it calls `StepInstallProtoc`. -/
def tidyTrace2 (ctx : Context) (pm : PluginManager) (path : String) (items : ConfigItems) :
    List Event :=
  tidyTrace1 ctx pm path ++ [.loadConfigItems path items none]

/-- The calls `tidy` has made when it calls `StepInstallRepositories`. -/
def tidyTrace3 (ctx : Context) (pm : PluginManager) (path : String) (items : ConfigItems) :
    List Event :=
  tidyTrace2 ctx pm path items ++ [.stepInstallProtoc ctx pm items none]

/-- The calls `tidy` has made when it calls `StepInstallPlugins`. -/
def tidyTrace4 (ctx : Context) (pm : PluginManager) (path : String) (items : ConfigItems) :
    List Event :=
  tidyTrace3 ctx pm path items ++ [.stepInstallRepositories ctx pm items none]

/-- The variables `debugMode` and `perCommandTimeout` of `CommandTidy`. -/
inductive TidyVar where
  | debugMode
  | perCommandTimeout
  deriving DecidableEq, Repr

/-- The values of the two variables. -/
structure TidyVars where
  debugMode : Bool
  perCommandTimeout : Duration
  deriving DecidableEq, Repr

/-- The values the variables are declared with: `var debugMode bool` and
`perCommandTimeout := time.Second * 300`. -/
def TidyVars.initial : TidyVars := ⟨false, Second * 300⟩

/-- Storing a parsed value in a variable of the tidy command. -/
def TidyVars.set : TidyVar → FlagValue → TidyVars → Option TidyVars
  | .debugMode, .bool b, v => some { v with debugMode := b }
  | .perCommandTimeout, .duration d, v => some { v with perCommandTimeout := d }
  | .debugMode, .duration _, _ => none
  | .perCommandTimeout, .bool _, _ => none

/-- The flags `CommandTidy` registers (`flags.BoolVarP`, `flags.DurationVarP`). -/
def tidyFlags : List (Flag TidyVar) :=
  [ ⟨.debugMode, "debug", "d", .bool TidyVars.initial.debugMode, "debug mode"⟩,
    ⟨.perCommandTimeout, "timeout", "t", .duration TidyVars.initial.perCommandTimeout,
      "execution timeout for per command"⟩ ]

/-- The key set of `configMap` after `configMap[path] = struct{}{}`; a map
holds a key once. -/
def mapInsert (configMap : List String) (path : String) : List String :=
  if path ∈ configMap then configMap else configMap ++ [path]

/-- The statements of `Run` that fill `targets`: the events, and the targets
when the run goes on. -/
def tidyResolve (log : Logger) (env : TidyEnv) (args : List String) :
    List Event × Option (List String) :=
  if args.length ≠ 0 then
    ([], some (args.foldl (fun targets arg => targets ++ [(env.abs arg).1]) []))
  else
    match env.getwd with
    | (dir, some err) =>
      if log.fatalReturns then
        ([.getwd dir (some err), .logFatal [] "failed to get current dir: %s" [err],
          .listConfigPaths dir (env.listConfigPaths dir)], some (env.listConfigPaths dir))
      else ([.getwd dir (some err), .logFatal [] "failed to get current dir: %s" [err]], none)
    | (dir, none) =>
      ([.getwd dir none, .listConfigPaths dir (env.listConfigPaths dir)],
        some (env.listConfigPaths dir))

/-- The statements of `Run` that create the plugin manager: the events, and
the plugin manager when the run goes on. -/
def tidyPluginManager (log : Logger) (env : TidyEnv) : List Event × Option PluginManager :=
  match env.newPluginManager with
  | (pluginManager, some err) =>
    if log.fatalReturns then
      ([.newPluginManager pluginManager (some err),
        .logFatal [] "failed to create plugin manager: %s" [err]], some pluginManager)
    else
      ([.newPluginManager pluginManager (some err),
        .logFatal [] "failed to create plugin manager: %s" [err]], none)
  | (pluginManager, none) => ([.newPluginManager pluginManager none], some pluginManager)

/-- The statement `if err != nil { log.LogFatal(..., "failed to tidy config") }`
of the loop, which stands twice in it: the events it makes. -/
def tidyFailed (path : String) : Option Err → List Event
  | some err => [Event.logFatal [("path", path), ("err", err)] "failed to tidy config" []]
  | none => []

/-- The body of `for _, path := range targets`, run after the events `h`: the
events, and the key set of `configMap` when the loop goes on. -/
def tidyPath (log : Logger) (env : TidyEnv) (ctx : Context) (pluginManager : PluginManager)
    (h : List Event) (path : String) (configMap : List String) :
    List Event × Option (List String) :=
  match env.isFileExists h path with
  | (exists_, err) =>
    let t0 := Event.isFileExists path exists_ err :: tidyFailed path err
    if err.isSome && !log.fatalReturns then (t0, none)
    else if !exists_ then (t0, some configMap)
    else
      let t1 := t0 ++ [.logInfo "tidy %s" [path], .tidyCall ctx pluginManager path]
      match tidy env (h ++ t1) ctx pluginManager path with
      | (inner, r) =>
        let t2 := t1 ++ inner ++ Event.tidyReturn path r :: tidyFailed path r
        if r.isSome && !log.fatalReturns then (t2, none)
        else (t2, some (mapInsert configMap path))

/-- The statements of `Run` after the loop. -/
def tidyReport (env : TidyEnv) (configMap : List String) : Run :=
  ⟨[Event.logInfo "these following config files were tidied:" []] ++
    (env.mapOrder configMap).map (fun path => Event.logInfo "\t%s" [path]) ++
    [Event.logInfo "\r\nsucceeded, you are ready to go :)" []], .returned⟩

/-- The loop `for _, path := range targets` and what follows it, run after the
events `h`. -/
def tidyLoop (log : Logger) (env : TidyEnv) (ctx : Context) (pluginManager : PluginManager) :
    List String → List Event → List String → Run
  | [], _, configMap => tidyReport env configMap
  | path :: rest, h, configMap =>
    match tidyPath log env ctx pluginManager h path configMap with
    | (t, none) => ⟨t, .exited⟩
    | (t, some configMap1) =>
      let r := tidyLoop log env ctx pluginManager rest (h ++ t) configMap1
      ⟨t ++ r.trace, r.outcome⟩

/-- The first statements of `Run`: the context and the log level, with the
events. -/
def tidyContext (vars : TidyVars) : Context × List Event :=
  let ctx := Context.withPerCommandTimeout Context.background vars.perCommandTimeout
  let t0 := [Event.setLogLevel Level.info]
  if vars.debugMode then
    (Context.withDebugMode ctx,
      t0 ++ [.setLogLevel Level.debug, .logWarn "running in debug mode" []])
  else (ctx, t0)

/-- The function `Run` of the tidy command. -/
def tidyRun (log : Logger) (env : TidyEnv) (vars : TidyVars) (args : List String) : Run :=
  match tidyContext vars with
  | (ctx, t1) =>
    match tidyResolve log env args with
    | (t2, none) => ⟨t1 ++ t2, .exited⟩
    | (t2, some targets) =>
      match tidyPluginManager log env with
      | (t3, none) => ⟨t1 ++ t2 ++ t3, .exited⟩
      | (t3, some pluginManager) =>
        let r := tidyLoop log env ctx pluginManager targets (t1 ++ t2 ++ t3) []
        ⟨t1 ++ t2 ++ t3 ++ r.trace, r.outcome⟩

/-- The tidy command on a command line: the flags are parsed and `Run` is
called on the arguments, however many. -/
def CommandTidy (log : Logger) (env : TidyEnv) (cl : CommandLine) : Run :=
  match parseFlags tidyFlags TidyVars.set cl.flags TidyVars.initial with
  | none => ⟨[], .usage⟩
  | some vars => tidyRun log env vars cl.args

/-! ### What the properties of the tidy command speak about -/

/-- The place of a step of `tidy` in the order of the source: 0 for
`StepTidyConfigFile`, 1 for `LoadConfigItems`, 2 for `StepInstallProtoc`, 3 for
`StepInstallRepositories`, 4 for `StepInstallPlugins`. -/
def Event.stepIndex : Event → Option Nat
  | .stepTidyConfigFile _ _ _ _ => some 0
  | .loadConfigItems _ _ _ => some 1
  | .stepInstallProtoc _ _ _ _ => some 2
  | .stepInstallRepositories _ _ _ _ => some 3
  | .stepInstallPlugins _ _ _ _ => some 4
  | _ => none

/-- The error a step of `tidy` returned, when the event is a step that
failed. -/
def Event.stepErr : Event → Option Err
  | .stepTidyConfigFile _ _ _ err => err
  | .loadConfigItems _ _ err => err
  | .stepInstallProtoc _ _ _ err => err
  | .stepInstallRepositories _ _ _ err => err
  | .stepInstallPlugins _ _ _ err => err
  | _ => none

/-- The context, plugin manager and config items an install step was given. -/
def Event.installArgs : Event → Option (Context × PluginManager × ConfigItems)
  | .stepInstallProtoc ctx pm items _ => some (ctx, pm, items)
  | .stepInstallRepositories ctx pm items _ => some (ctx, pm, items)
  | .stepInstallPlugins ctx pm items _ => some (ctx, pm, items)
  | _ => none

/-- The event is one made inside the function `tidy`. -/
def Event.isInner : Event → Bool
  | .getProgressBar _ _ => true
  | .progressLabel _ => true
  | .progressIncr => true
  | .progressWait => true
  | .stepTidyConfigFile _ _ _ _ => true
  | .loadConfigItems _ _ _ => true
  | .stepInstallProtoc _ _ _ _ => true
  | .stepInstallRepositories _ _ _ _ => true
  | .stepInstallPlugins _ _ _ _ => true
  | _ => false

/-- The path handed to `util.IsFileExists` and what it reported. -/
def Event.check : Event → Option (String × Bool)
  | .isFileExists path exists_ _ => some (path, exists_)
  | _ => none

/-- The path the function `tidy` was invoked on. -/
def Event.tidiedPath : Event → Option String
  | .tidyCall _ _ path => some path
  | _ => none

/-- The context the function `tidy` was invoked with. -/
def Event.tidyContext : Event → Option Context
  | .tidyCall ctx _ _ => some ctx
  | _ => none

/-- The path of a line logged under "these following config files were
tidied:". -/
def Event.loggedPath : Event → Option String
  | .logInfo "\t%s" [path] => some path
  | _ => none

/-- The level a call of `log.SetLogLevel` sets. -/
def Event.level : Event → Option Level
  | .setLogLevel l => some l
  | _ => none

/-- The event is a call of `configs.ListConfigPaths`. -/
def Event.isListConfigPaths : Event → Bool
  | .listConfigPaths _ _ => true
  | _ => false

/-- The list of config paths of claim C5, following its words: the config
files of the current directory and its parents when no argument is given, the
absolute paths of the arguments otherwise. -/
def referenceConfigPaths (env : TidyEnv) (args : List String) : List String :=
  if args = [] then env.listConfigPaths env.getwd.1
  else args.map (fun arg => (env.abs arg).1)

/-- The event is one made by `Run` of the tidy command before its loop. -/
def Event.isSetup : Event → Bool
  | .setLogLevel _ => true
  | .logWarn _ _ => true
  | .getwd _ _ => true
  | .logFatal _ _ _ => true
  | .listConfigPaths _ _ => true
  | .newPluginManager _ _ => true
  | _ => false

/-- The duration a flag value stands for, `default` when there is none. -/
def flagDuration (default : Duration) : Option FlagValue → Duration
  | some (.duration d) => d
  | _ => default

/-! ### What the properties of the build command speak about -/

/-- The event is a call of `bootstraps.Compile`. -/
def Event.isCompile : Event → Bool
  | .compile _ _ _ => true
  | _ => false

/-- The context handed to `bootstraps.StepTidyConfig` or `bootstraps.Compile`,
when the event is such a call. -/
def Event.callContext : Event → Option Context
  | .stepTidyConfig ctx _ _ => some ctx
  | .compile ctx _ _ => some ctx
  | _ => none

/-- The target list handed to `bootstraps.StepTidyConfig` or
`bootstraps.Compile`, when the event is such a call. -/
def Event.callTargets : Event → Option (List String)
  | .stepTidyConfig _ targets _ => some targets
  | .compile _ targets _ => some targets
  | _ => none

/-- The event is a call of `log.LogFatal`. -/
def Event.isFatal : Event → Bool
  | .logFatal _ _ _ => true
  | _ => false

/-- The event is a log line written before the targets are known: an info
line other than the success message, or a fatal message. -/
def Event.isEarlyLog : Event → Bool
  | .logInfo format _ => format != buildSucceed
  | .logFatal _ _ _ => true
  | _ => false

/-- The target list of claim C3, following its words: the files of the
directory with extension `.proto`, found recursively or not, or the one path
that is not a directory. -/
def referenceTargets (env : BuildEnv) (recursive : Bool) (target : String) (isDir : Bool) :
    List String :=
  if isDir then
    if recursive then (env.getFilesWithExtRecursively target ".proto").1
    else (env.getFilesWithExt target ".proto").1
  else [target]

/-- The value the flags written give the flag with the long name `name` and
the short name `shorthand`, starting from `acc`: the one written last. -/
def lastGiven (name shorthand : String) :
    List (FlagRef × FlagValue) → Option FlagValue → Option FlagValue
  | [], acc => acc
  | (r, v) :: rest, acc =>
    lastGiven name shorthand rest
      (if r = FlagRef.long name ∨ r = FlagRef.short shorthand then some v else acc)

/-- The value the command line gives the flag with the long name `name` and
the short name `shorthand`; `none` when the flag is not written. -/
def CommandLine.given (cl : CommandLine) (name shorthand : String) : Option FlagValue :=
  lastGiven name shorthand cl.flags none

/-- The boolean flag is given: it is written on the command line (and not
written off, as in `--name=false`). -/
def CommandLine.boolGiven (cl : CommandLine) (name shorthand : String) : Bool :=
  cl.given name shorthand == some (FlagValue.bool true)

/-- The boolean a flag value stands for, `default` when there is none. -/
def flagBool (default : Bool) : Option FlagValue → Bool
  | some (.bool b) => b
  | _ => default

/-- The error a call of `bootstraps.StepTidyConfig` or `bootstraps.Compile`
returned, when the event is such a call and it returned one. -/
def Event.callErr : Event → Option Err
  | .stepTidyConfig _ _ err => err
  | .compile _ _ err => err
  | _ => none

/-- The trace is a sequence of early log lines followed by nothing or by a
tail that satisfies `Q`. -/
def EarlyThen (tr : List Event) (Q : List Event → Prop) : Prop :=
  ∃ pre tail, tr = pre ++ tail ∧ (∀ e ∈ pre, e.isEarlyLog = true) ∧ (tail = [] ∨ Q tail)

/-- A build environment in which everything succeeds but the compilation: the
argument is an absolute path of a file, `StepTidyConfig` returns nil and
`Compile` returns an error. -/
def compileFailsEnv : BuildEnv where
  abs := fun a => (a, none)
  stat := fun _ => (some ⟨false⟩, none)
  getFilesWithExtRecursively := fun _ _ => ([], none)
  getFilesWithExt := fun _ _ => ([], none)
  stepTidyConfig := fun _ _ => none
  compile := fun _ _ => some "exit status 1"

/-- A build environment in which the argument is an absolute path of a file
and `StepTidyConfig` returns an error. -/
def tidyFailsEnv : BuildEnv where
  abs := fun a => (a, none)
  stat := fun _ => (some ⟨false⟩, none)
  getFilesWithExtRecursively := fun _ _ => ([], none)
  getFilesWithExt := fun _ _ => ([], none)
  stepTidyConfig := fun _ _ => some "no such version"
  compile := fun _ _ => none

/-- A build environment in which the argument is an absolute path of a file
and every call succeeds. -/
def buildOkEnv : BuildEnv where
  abs := fun a => (a, none)
  stat := fun _ => (some ⟨false⟩, none)
  getFilesWithExtRecursively := fun _ _ => ([], none)
  getFilesWithExt := fun _ _ => ([], none)
  stepTidyConfig := fun _ _ => none
  compile := fun _ _ => none

/-- The flag written is one the tidy command registers, with a value of its
type: `--debug`/`-d` with a boolean, `--timeout`/`-t` with a duration. -/
def tidyFlagWritten (rv : FlagRef × FlagValue) : Bool :=
  match rv.2 with
  | .bool _ => rv.1 == FlagRef.long "debug" || rv.1 == FlagRef.short "d"
  | .duration _ => rv.1 == FlagRef.long "timeout" || rv.1 == FlagRef.short "t"

/-- A tidy environment for a run on three arguments: `/w/a.yaml` exists,
nothing else does, every step succeeds, and `range` walks a map in the reverse
of the order the keys were put in. -/
def sampleTidyEnv : TidyEnv where
  abs := fun a => (a, none)
  getwd := ("/w", none)
  listConfigPaths := fun _ => []
  newPluginManager := (some 0, none)
  isFileExists := fun _ path => (path == "/w/a.yaml", none)
  stepTidyConfigFile := fun _ _ _ _ => none
  loadConfigItems := fun _ _ => (["protoc"], none)
  stepInstallProtoc := fun _ _ _ _ => none
  stepInstallRepositories := fun _ _ _ _ => none
  stepInstallPlugins := fun _ _ _ _ => none
  mapOrder := List.reverse

/-- A tidy environment for a run without arguments: the working directory is
`/w/p`, its config file and the one of `/w` are found and exist, and every
step succeeds. -/
def ancestorsTidyEnv : TidyEnv where
  abs := fun a => (a, none)
  getwd := ("/w/p", none)
  listConfigPaths := fun dir => [dir ++ "/powerproto.yaml", "/w/powerproto.yaml"]
  newPluginManager := (some 0, none)
  isFileExists := fun _ _ => (true, none)
  stepTidyConfigFile := fun _ _ _ _ => none
  loadConfigItems := fun _ _ => (["protoc"], none)
  stepInstallProtoc := fun _ _ _ _ => none
  stepInstallRepositories := fun _ _ _ _ => none
  stepInstallPlugins := fun _ _ _ _ => none
  mapOrder := fun keys => keys

/-- A command line of the tidy command with both flags: `-d --timeout 5s` on
`/w/a.yaml`. -/
def debugTidyLine : CommandLine :=
  ⟨[(FlagRef.short "d", FlagValue.bool true),
    (FlagRef.long "timeout", FlagValue.duration (Second * 5))], ["/w/a.yaml"]⟩

/-- A command line of the tidy command that names `/w/a.yaml` twice. -/
def sampleTidyLine : CommandLine :=
  ⟨[], ["/w/a.yaml", "/w/b.yaml", "/w/a.yaml"]⟩

/-! ### Lemmas on the build command -/

theorem Logger.LogFatal_trace (log : Logger) (fields : List (String × String)) (format : String)
    (args : List String) (rest : Run) :
    (log.LogFatal fields format args rest).trace =
      Event.logFatal fields format args :: (if log.fatalReturns then rest.trace else []) := by
  unfold Logger.LogFatal Run.cons
  split <;> simp_all

/-- The four shapes of the end of a build run. -/
theorem buildTargets_cases (log : Logger) (env : BuildEnv) (ctx : Context) (ts : List String) :
    (ts = [] ∧ (buildTargets log env ctx ts).trace = [Event.logWarn "no file to compile" []]) ∨
    (ts ≠ [] ∧ ∃ err, env.stepTidyConfig ctx ts = some err ∧
      (buildTargets log env ctx ts).trace =
        [Event.stepTidyConfig ctx ts (some err),
         Event.logFatal [] "failed to tidy config: %+v" [err]]) ∨
    (ts ≠ [] ∧ env.stepTidyConfig ctx ts = none ∧ ∃ err, env.compile ctx ts = some err ∧
      (buildTargets log env ctx ts).trace =
        Event.stepTidyConfig ctx ts none :: Event.compile ctx ts (some err) ::
          Event.logFatal [] "failed to compile: %+v" [err] ::
          (if log.fatalReturns then [Event.logInfo buildSucceed []] else [])) ∨
    (ts ≠ [] ∧ env.stepTidyConfig ctx ts = none ∧ env.compile ctx ts = none ∧
      (buildTargets log env ctx ts).trace =
        [Event.stepTidyConfig ctx ts none, Event.compile ctx ts none,
         Event.logInfo buildSucceed []]) := by
  unfold buildTargets
  by_cases hts : ts = []
  · left
    simp [hts]
  · right
    have hlen : ¬ ts.length = 0 := by simpa using hts
    rw [if_neg hlen]
    cases h1 : env.stepTidyConfig ctx ts with
    | some err =>
      left
      refine ⟨hts, err, rfl, ?_⟩
      simp [Run.cons, Logger.LogFatal_trace]
    | none =>
      right
      cases h2 : env.compile ctx ts with
      | some err =>
        left
        refine ⟨hts, rfl, err, rfl, ?_⟩
        simp [Run.cons, Logger.LogFatal_trace]
      | none =>
        right
        exact ⟨hts, rfl, rfl, by simp [Run.cons]⟩

theorem EarlyThen.nil (Q : List Event → Prop) : EarlyThen [] Q :=
  ⟨[], [], rfl, by simp, Or.inl rfl⟩

theorem EarlyThen.tail {tr : List Event} {Q : List Event → Prop} (h : Q tr) : EarlyThen tr Q :=
  ⟨[], tr, rfl, by simp, Or.inr h⟩

theorem EarlyThen.cons {tr : List Event} {Q : List Event → Prop} (e : Event)
    (he : e.isEarlyLog = true) (h : EarlyThen tr Q) : EarlyThen (e :: tr) Q := by
  obtain ⟨pre, tail, rfl, hpre, hq⟩ := h
  refine ⟨e :: pre, tail, rfl, ?_, hq⟩
  intro x hx
  rcases List.mem_cons.1 hx with rfl | hx
  · exact he
  · exact hpre x hx

theorem EarlyThen.mono {tr : List Event} {Q Q' : List Event → Prop} (hQ : ∀ t, Q t → Q' t)
    (h : EarlyThen tr Q) : EarlyThen tr Q' := by
  obtain ⟨pre, tail, rfl, hpre, hq⟩ := h
  exact ⟨pre, tail, rfl, hpre, hq.imp id (hQ tail)⟩

theorem EarlyThen.fatal {Q : List Event → Prop} (log : Logger) (fields : List (String × String))
    (format : String) (args : List String) (rest : Run) (h : EarlyThen rest.trace Q) :
    EarlyThen (log.LogFatal fields format args rest).trace Q := by
  rw [Logger.LogFatal_trace]
  refine EarlyThen.cons _ rfl ?_
  split
  · exact h
  · exact EarlyThen.nil Q

theorem buildDir_shape (log : Logger) (env : BuildEnv) (ctx : Context) (recursive : Bool)
    (target : String) :
    EarlyThen (buildDir log env ctx recursive target).trace (fun tail =>
      tail = (buildTargets log env ctx (referenceTargets env recursive target true)).trace) := by
  unfold buildDir
  refine EarlyThen.cons _ (by decide) ?_
  cases recursive with
  | true =>
    rcases h : env.getFilesWithExtRecursively target ".proto" with ⟨ts, _ | err⟩
    · exact EarlyThen.tail (by simp [referenceTargets, h])
    · exact EarlyThen.fatal _ _ _ _ _ (EarlyThen.tail (by simp [referenceTargets, h]))
  | false =>
    rcases h : env.getFilesWithExt target ".proto" with ⟨ts, _ | err⟩
    · exact EarlyThen.tail (by simp [referenceTargets, h])
    · exact EarlyThen.fatal _ _ _ _ _ (EarlyThen.tail (by simp [referenceTargets, h]))

theorem buildStat_shape (log : Logger) (env : BuildEnv) (ctx : Context) (recursive : Bool)
    (target : String) (fileInfo : Option FileInfo) :
    EarlyThen (buildStat log env ctx recursive target fileInfo).trace (fun tail =>
      ∃ fi, fileInfo = some fi ∧
        tail = (buildTargets log env ctx (referenceTargets env recursive target fi.isDir)).trace) := by
  unfold buildStat
  cases fileInfo with
  | none => exact EarlyThen.nil _
  | some fi =>
    cases hd : fi.isDir with
    | true =>
      simp only [hd, if_true]
      exact (buildDir_shape log env ctx recursive target).mono
        (fun t ht => ⟨fi, rfl, by rw [hd, ht]⟩)
    | false =>
      simp only [hd]
      exact EarlyThen.tail ⟨fi, rfl, by simp [referenceTargets, hd]⟩

/-- A build run is a sequence of early log lines followed by nothing or by the
end of the run on the reference target list. -/
theorem buildRun_shape (log : Logger) (env : BuildEnv) (vars : BuildVars) (arg : String) :
    EarlyThen (buildRun log env vars arg).trace (fun tail =>
      ∃ fi, (env.stat (env.abs arg).1).1 = some fi ∧
        tail = (buildTargets log env (buildContext vars)
          (referenceTargets env vars.recursive (env.abs arg).1 fi.isDir)).trace) := by
  unfold buildRun
  have key : ∀ target : String,
      EarlyThen (match env.stat target with
        | (fileInfo, some err) =>
          log.LogFatal [("target", target)] "failed to stat target: %s" [err]
            (buildStat log env (buildContext vars) vars.recursive target fileInfo)
        | (fileInfo, none) =>
          buildStat log env (buildContext vars) vars.recursive target fileInfo).trace
        (fun tail => ∃ fi, (env.stat target).1 = some fi ∧
          tail = (buildTargets log env (buildContext vars)
            (referenceTargets env vars.recursive target fi.isDir)).trace) := by
    intro target
    rcases h : env.stat target with ⟨fileInfo, _ | err⟩
    · exact buildStat_shape log env _ _ target fileInfo
    · exact EarlyThen.fatal _ _ _ _ _ (buildStat_shape log env _ _ target fileInfo)
  rcases h : env.abs arg with ⟨target, _ | err⟩
  · exact key target
  · exact EarlyThen.fatal _ _ _ _ _ (key target)

/-- The shape of a run of the build command: when `Run` is called, early log
lines followed by nothing or by the end of the run on the reference target
list. -/
theorem CommandBuild_shape (log : Logger) (env : BuildEnv) (cl : CommandLine) :
    EarlyThen (CommandBuild log env cl).trace (fun tail =>
      ∃ vars arg fi, parseFlags buildFlags BuildVars.set cl.flags BuildVars.initial = some vars ∧
        cl.args = [arg] ∧ (env.stat (env.abs arg).1).1 = some fi ∧
        tail = (buildTargets log env (buildContext vars)
          (referenceTargets env vars.recursive (env.abs arg).1 fi.isDir)).trace) := by
  unfold CommandBuild
  cases hp : parseFlags buildFlags BuildVars.set cl.flags BuildVars.initial with
  | none => exact EarlyThen.nil _
  | some vars =>
    rcases ha : cl.args with _ | ⟨arg, _ | ⟨b, l⟩⟩
    · exact EarlyThen.nil _
    · exact (buildRun_shape log env vars arg).mono
        (fun t ⟨fi, h1, h2⟩ => ⟨vars, arg, fi, rfl, rfl, h1, h2⟩)
    · exact EarlyThen.nil _

theorem Event.isEarlyLog_not_call {e : Event} (h : e.isEarlyLog = true) :
    e.isCompile = false ∧ e.callContext = none ∧ e.callTargets = none ∧
      e ≠ Event.logInfo buildSucceed [] ∧
      (∀ ctx ts r, e ≠ Event.compile ctx ts r) ∧ (∀ ctx ts r, e ≠ Event.stepTidyConfig ctx ts r) := by
  cases e <;> simp_all [Event.isEarlyLog, Event.isCompile, Event.callContext, Event.callTargets]

/-! ## Properties of the build command -/

/-- C1: in every run of the build command `bootstraps.Compile` is called at
most once, only with a non-empty target list, and only after
`bootstraps.StepTidyConfig` was called with the same context and target list
and returned no error; when `StepTidyConfig` returns an error, `Compile` is
not called. -/
theorem build_compile_once_after_tidy (log : Logger) (env : BuildEnv) (cl : CommandLine) :
    ((CommandBuild log env cl).trace.filter Event.isCompile).length ≤ 1 ∧
    (∀ ctx ts r, Event.compile ctx ts r ∈ (CommandBuild log env cl).trace →
      ts ≠ [] ∧ env.stepTidyConfig ctx ts = none ∧
      ∃ pre post, (CommandBuild log env cl).trace = pre ++ Event.stepTidyConfig ctx ts none :: post ∧
        Event.compile ctx ts r ∈ post) ∧
    (∀ ctx ts err, Event.stepTidyConfig ctx ts (some err) ∈ (CommandBuild log env cl).trace →
      env.stepTidyConfig ctx ts = some err ∧
      ∀ e ∈ (CommandBuild log env cl).trace, e.isCompile = false) := by
  obtain ⟨pre, tail, htr, hpre, htail⟩ := CommandBuild_shape log env cl
  rw [htr]
  have hfilter : pre.filter Event.isCompile = [] := by
    rw [List.filter_eq_nil_iff]
    intro e he
    simp [(Event.isEarlyLog_not_call (hpre e he)).1]
  have hnc : ∀ ctx ts r, Event.compile ctx ts r ∉ pre := fun ctx ts r hm =>
    (Event.isEarlyLog_not_call (hpre _ hm)).2.2.2.2.1 ctx ts r rfl
  have hnt : ∀ ctx ts r, Event.stepTidyConfig ctx ts r ∉ pre := fun ctx ts r hm =>
    (Event.isEarlyLog_not_call (hpre _ hm)).2.2.2.2.2 ctx ts r rfl
  have hpc : ∀ e ∈ pre, e.isCompile = false := fun e he => (Event.isEarlyLog_not_call (hpre e he)).1
  rcases htail with rfl | ⟨vars, arg, fi, -, -, -, rfl⟩
  · refine ⟨by simp [hfilter], ?_, ?_⟩
    · intro ctx ts r hm
      simp only [List.append_nil] at hm
      exact absurd hm (hnc ctx ts r)
    · intro ctx ts err hm
      simp only [List.append_nil] at hm
      exact absurd hm (hnt ctx ts err)
  · generalize buildContext vars = c
    generalize referenceTargets env vars.recursive (env.abs arg).1 fi.isDir = targets
    rcases buildTargets_cases log env c targets with ⟨-, h⟩ | ⟨hne, err, h1, h⟩ |
      ⟨hne, h1, err, h2, h⟩ | ⟨hne, h1, h2, h⟩
    · rw [h]
      refine ⟨by simp [hfilter, Event.isCompile], ?_, ?_⟩
      · intro ctx ts r hm
        simp only [List.mem_append, List.mem_singleton] at hm
        rcases hm with hm | hm
        · exact absurd hm (hnc ctx ts r)
        · cases hm
      · intro ctx ts err hm
        simp only [List.mem_append, List.mem_singleton] at hm
        rcases hm with hm | hm
        · exact absurd hm (hnt ctx ts err)
        · cases hm
    · rw [h]
      refine ⟨by simp [hfilter, Event.isCompile], ?_, ?_⟩
      · intro ctx ts r hm
        simp only [List.mem_append, List.mem_cons, List.mem_singleton, List.mem_nil_iff] at hm
        rcases hm with hm | hm | hm
        · exact absurd hm (hnc ctx ts r)
        · cases hm
        · simp at hm
      · intro ctx ts e hm
        simp only [List.mem_append, List.mem_cons, List.mem_singleton, List.mem_nil_iff] at hm
        rcases hm with hm | hm | hm
        · exact absurd hm (hnt ctx ts e)
        · cases hm
          refine ⟨h1, ?_⟩
          intro x hx
          simp only [List.mem_append, List.mem_cons, List.not_mem_nil, or_false] at hx
          rcases hx with hx | rfl | rfl
          · exact hpc x hx
          · rfl
          · rfl
        · simp at hm
    · rw [h]
      refine ⟨?_, ?_, ?_⟩
      · cases log.fatalReturns <;> simp [hfilter, Event.isCompile]
      · intro ctx ts r hm
        have hm2 : Event.compile ctx ts r = Event.compile c targets (some err) := by
          cases hf : log.fatalReturns <;>
            simp [hf, hnc ctx ts r] at hm <;> simp [hm]
        cases hm2
        refine ⟨hne, h1, pre, _, rfl, ?_⟩
        simp
      · intro ctx ts e hm
        exfalso
        cases hf : log.fatalReturns <;> simp [hf, hnt ctx ts e] at hm
    · rw [h]
      refine ⟨by simp [hfilter, Event.isCompile], ?_, ?_⟩
      · intro ctx ts r hm
        have hm2 : Event.compile ctx ts r = Event.compile c targets none := by
          simp [hnc ctx ts r] at hm
          simp [hm]
        cases hm2
        refine ⟨hne, h1, pre, _, rfl, ?_⟩
        simp
      · intro ctx ts e hm
        exfalso
        simp [hnt ctx ts e] at hm

/-! ### The flags of the build command -/

/-- What parsing leaves in the three variables of the build command. -/
theorem parseFlags_build (fl : List (FlagRef × FlagValue)) :
    ∀ (s vars : BuildVars) (accR accP : Option FlagValue),
      parseFlags buildFlags BuildVars.set fl s = some vars →
      s.recursive = flagBool false accR → s.postScriptEnabled = flagBool false accP →
      vars.recursive = flagBool false (lastGiven "recursive" "r" fl accR) ∧
      vars.postScriptEnabled = flagBool false (lastGiven "postScriptEnabled" "p" fl accP) ∧
      vars.dryRun = s.dryRun := by
  induction fl with
  | nil =>
    intro s vars accR accP h hR hP
    simp only [parseFlags, Option.some.injEq] at h
    subst h
    exact ⟨hR, hP, rfl⟩
  | cons x rest ih =>
    intro s vars accR accP h hR hP
    obtain ⟨r, v⟩ := x
    simp only [parseFlags] at h
    simp only [lastGiven]
    cases r with
    | long n =>
      by_cases h1 : n = "recursive"
      · subst h1
        cases v with
        | bool b =>
          simp [buildFlags, List.find?, Flag.isNamedBy, BuildVars.set] at h
          have := ih _ vars (some (.bool b)) accP h rfl hP
          simpa using this
        | duration d =>
          simp [buildFlags, List.find?, Flag.isNamedBy, BuildVars.set] at h
      · by_cases h2 : n = "postScriptEnabled"
        · subst h2
          cases v with
          | bool b =>
            simp [buildFlags, List.find?, Flag.isNamedBy, BuildVars.set] at h
            have := ih _ vars accR (some (.bool b)) h hR rfl
            simpa using this
          | duration d =>
            simp [buildFlags, List.find?, Flag.isNamedBy, BuildVars.set] at h
        · have h1b : ("recursive" == n) = false := beq_eq_false_iff_ne.2 (fun h => h1 h.symm)
          have h2b : ("postScriptEnabled" == n) = false :=
            beq_eq_false_iff_ne.2 (fun h => h2 h.symm)
          simp [buildFlags, List.find?, Flag.isNamedBy, h1b, h2b] at h
    | short n =>
      by_cases h1 : n = "r"
      · subst h1
        cases v with
        | bool b =>
          simp [buildFlags, List.find?, Flag.isNamedBy, BuildVars.set] at h
          have := ih _ vars (some (.bool b)) accP h rfl hP
          simpa using this
        | duration d =>
          simp [buildFlags, List.find?, Flag.isNamedBy, BuildVars.set] at h
      · by_cases h2 : n = "p"
        · subst h2
          cases v with
          | bool b =>
            simp [buildFlags, List.find?, Flag.isNamedBy, BuildVars.set] at h
            have := ih _ vars accR (some (.bool b)) h hR rfl
            simpa using this
          | duration d =>
            simp [buildFlags, List.find?, Flag.isNamedBy, BuildVars.set] at h
        · have h1b : ("r" == n) = false := beq_eq_false_iff_ne.2 (fun h => h1 h.symm)
          have h2b : ("p" == n) = false := beq_eq_false_iff_ne.2 (fun h => h2 h.symm)
          simp [buildFlags, List.find?, Flag.isNamedBy, h1b, h2b] at h

theorem flagBool_false_eq (x : Option FlagValue) :
    flagBool false x = (x == some (FlagValue.bool true)) := by
  rcases x with _ | ⟨b | d⟩
  · rfl
  · cases b <;> rfl
  · rfl

/-- The variables of the build command after parsing, read off the command
line; nothing stores a value in `dryRun`. -/
theorem parseFlags_build_given (cl : CommandLine) (vars : BuildVars)
    (h : parseFlags buildFlags BuildVars.set cl.flags BuildVars.initial = some vars) :
    vars.recursive = cl.boolGiven "recursive" "r" ∧
    vars.postScriptEnabled = cl.boolGiven "postScriptEnabled" "p" ∧
    vars.dryRun = false := by
  have := parseFlags_build cl.flags BuildVars.initial vars none none h rfl rfl
  simpa [CommandLine.boolGiven, CommandLine.given, flagBool_false_eq, BuildVars.initial] using this

/-- Every call of `StepTidyConfig` and `Compile` at the end of a build run is
made with the context and the targets that end was entered with. -/
theorem buildTargets_calls (log : Logger) (env : BuildEnv) (ctx : Context) (ts : List String) :
    ∀ e ∈ (buildTargets log env ctx ts).trace,
      (e.callContext = none ∧ e.callTargets = none) ∨
      (e.callContext = some ctx ∧ e.callTargets = some ts) := by
  intro e he
  rcases buildTargets_cases log env ctx ts with ⟨-, h⟩ | ⟨-, err, -, h⟩ | ⟨-, -, err, -, h⟩ |
    ⟨-, -, -, h⟩
  · rw [h] at he
    simp at he
    subst he
    exact Or.inl ⟨rfl, rfl⟩
  · rw [h] at he
    simp at he
    rcases he with rfl | rfl
    · exact Or.inr ⟨rfl, rfl⟩
    · exact Or.inl ⟨rfl, rfl⟩
  · rw [h] at he
    cases hf : log.fatalReturns <;> simp [hf] at he
    · rcases he with rfl | rfl | rfl
      · exact Or.inr ⟨rfl, rfl⟩
      · exact Or.inr ⟨rfl, rfl⟩
      · exact Or.inl ⟨rfl, rfl⟩
    · rcases he with rfl | rfl | rfl | rfl
      · exact Or.inr ⟨rfl, rfl⟩
      · exact Or.inr ⟨rfl, rfl⟩
      · exact Or.inl ⟨rfl, rfl⟩
      · exact Or.inl ⟨rfl, rfl⟩
  · rw [h] at he
    simp at he
    rcases he with rfl | rfl | rfl
    · exact Or.inr ⟨rfl, rfl⟩
    · exact Or.inr ⟨rfl, rfl⟩
    · exact Or.inl ⟨rfl, rfl⟩

/-- Every call of `StepTidyConfig` and `Compile` in a run of the build command
is made with the context built from the flags and with the reference target
list. -/
theorem CommandBuild_calls (log : Logger) (env : BuildEnv) (cl : CommandLine) :
    ∀ e ∈ (CommandBuild log env cl).trace, e.callContext ≠ none ∨ e.callTargets ≠ none →
      ∃ vars arg fi,
        parseFlags buildFlags BuildVars.set cl.flags BuildVars.initial = some vars ∧
        cl.args = [arg] ∧ (env.stat (env.abs arg).1).1 = some fi ∧
        e.callContext = some (buildContext vars) ∧
        e.callTargets = some (referenceTargets env vars.recursive (env.abs arg).1 fi.isDir) := by
  intro e he hcall
  obtain ⟨pre, tail, htr, hpre, htail⟩ := CommandBuild_shape log env cl
  rw [htr, List.mem_append] at he
  rcases he with he | he
  · have := Event.isEarlyLog_not_call (hpre e he)
    rcases hcall with hc | hc
    · exact absurd this.2.1 hc
    · exact absurd this.2.2.1 hc
  · rcases htail with rfl | ⟨vars, arg, fi, hp, ha, hs, rfl⟩
    · simp at he
    · rcases buildTargets_calls log env _ _ e he with ⟨h1, h2⟩ | ⟨h1, h2⟩
      · rcases hcall with hc | hc
        · exact absurd h1 hc
        · exact absurd h2 hc
      · exact ⟨vars, arg, fi, hp, ha, hs, h1, h2⟩

theorem buildContext_isDisableAction (vars : BuildVars) :
    (buildContext vars).isDisableAction = !vars.postScriptEnabled := by
  rcases vars with ⟨r, d, p⟩
  cases d <;> cases p <;> rfl

theorem buildContext_isDryRun (vars : BuildVars) :
    (buildContext vars).isDryRun = vars.dryRun := by
  rcases vars with ⟨r, d, p⟩
  cases d <;> cases p <;> rfl

/-- No call of `StepTidyConfig` or `Compile` in a run of the build command gets
a context marked dry-run. -/
theorem CommandBuild_not_dryRun (log : Logger) (env : BuildEnv) (cl : CommandLine) :
    ∀ e ∈ (CommandBuild log env cl).trace, ∀ ctx, e.callContext = some ctx →
      ctx.isDryRun = false := by
  intro e he ctx hctx
  obtain ⟨vars, arg, fi, hp, -, -, hc, -⟩ :=
    CommandBuild_calls log env cl e he (Or.inl (by simp [hctx]))
  rw [hctx, Option.some.injEq] at hc
  rw [hc, buildContext_isDryRun, (parseFlags_build_given cl vars hp).2.2]

/-- The end of a build run on a non-empty target list starts with the call of
`StepTidyConfig`. -/
theorem buildTargets_first (log : Logger) (env : BuildEnv) (ctx : Context) (ts : List String)
    (hts : ts ≠ []) :
    Event.stepTidyConfig ctx ts (env.stepTidyConfig ctx ts) ∈ (buildTargets log env ctx ts).trace := by
  rcases buildTargets_cases log env ctx ts with ⟨h0, -⟩ | ⟨-, err, h1, h⟩ | ⟨-, h1, err, -, h⟩ |
    ⟨-, h1, -, h⟩
  · exact absurd h0 hts
  · rw [h, h1]; simp
  · rw [h, h1]; simp
  · rw [h, h1]; simp

/-- When nothing fails before the targets are known and the reference target
list is not empty, `Run` hands it to `StepTidyConfig`. -/
theorem buildRun_hands_over (log : Logger) (env : BuildEnv) (vars : BuildVars) (arg : String)
    (fi : FileInfo) (habs : (env.abs arg).2 = none)
    (hstat : env.stat (env.abs arg).1 = (some fi, none))
    (hrec : (env.getFilesWithExtRecursively (env.abs arg).1 ".proto").2 = none)
    (hdir : (env.getFilesWithExt (env.abs arg).1 ".proto").2 = none)
    (hne : referenceTargets env vars.recursive (env.abs arg).1 fi.isDir ≠ []) :
    Event.stepTidyConfig (buildContext vars)
        (referenceTargets env vars.recursive (env.abs arg).1 fi.isDir)
        (env.stepTidyConfig (buildContext vars)
          (referenceTargets env vars.recursive (env.abs arg).1 fi.isDir)) ∈
      (buildRun log env vars arg).trace := by
  have hfirst := buildTargets_first log env (buildContext vars) _ hne
  unfold buildRun
  rcases ha : env.abs arg with ⟨target, aerr⟩
  rw [ha] at habs hstat hrec hdir hfirst hne
  simp only at habs hstat hrec hdir hfirst hne
  subst habs
  simp only [hstat, buildStat]
  cases hd : fi.isDir with
  | false =>
    rw [hd] at hfirst
    simpa [referenceTargets] using hfirst
  | true =>
    rw [hd] at hfirst
    simp only [if_true, buildDir, Run.cons]
    cases hr : vars.recursive with
    | true =>
      rw [hr] at hfirst
      rcases hw : env.getFilesWithExtRecursively target ".proto" with ⟨l, werr⟩
      have hl : referenceTargets env true target true = l := by simp [referenceTargets, hw]
      rw [hw] at hrec
      simp only at hrec
      subst hrec
      rw [hl] at hfirst ⊢
      simp [hfirst]
    | false =>
      rw [hr] at hfirst
      rcases hw : env.getFilesWithExt target ".proto" with ⟨l, werr⟩
      have hl : referenceTargets env false target true = l := by simp [referenceTargets, hw]
      rw [hw] at hdir
      simp only at hdir
      subst hdir
      rw [hl] at hfirst ⊢
      simp [hfirst]

/-- C3: the target list the build command hands to `StepTidyConfig` and
`Compile` is the reference one: the `.proto` files of the directory, found
recursively when the recursive flag is given and without sub folders when not,
or the absolute path alone when it is not a directory; and when nothing fails
on the way and that list is not empty, it is handed over. -/
theorem build_targets_reference (log : Logger) (env : BuildEnv) (cl : CommandLine) :
    (∀ e ∈ (CommandBuild log env cl).trace, ∀ ts, e.callTargets = some ts →
      ∃ arg fi, cl.args = [arg] ∧ (env.stat (env.abs arg).1).1 = some fi ∧
        ts = referenceTargets env (cl.boolGiven "recursive" "r") (env.abs arg).1 fi.isDir) ∧
    (∀ vars arg fi,
      parseFlags buildFlags BuildVars.set cl.flags BuildVars.initial = some vars →
      cl.args = [arg] → (env.abs arg).2 = none → env.stat (env.abs arg).1 = (some fi, none) →
      (env.getFilesWithExtRecursively (env.abs arg).1 ".proto").2 = none →
      (env.getFilesWithExt (env.abs arg).1 ".proto").2 = none →
      referenceTargets env (cl.boolGiven "recursive" "r") (env.abs arg).1 fi.isDir ≠ [] →
      ∃ ctx r, Event.stepTidyConfig ctx
        (referenceTargets env (cl.boolGiven "recursive" "r") (env.abs arg).1 fi.isDir) r ∈
          (CommandBuild log env cl).trace) := by
  constructor
  · intro e he ts hts
    obtain ⟨vars, arg, fi, hp, ha, hs, -, ht⟩ :=
      CommandBuild_calls log env cl e he (Or.inr (by simp [hts]))
    rw [hts, Option.some.injEq] at ht
    exact ⟨arg, fi, ha, hs, by rw [ht, (parseFlags_build_given cl vars hp).1]⟩
  · intro vars arg fi hp ha habs hstat hrec hdir hne
    rw [← (parseFlags_build_given cl vars hp).1] at hne ⊢
    have h := buildRun_hands_over log env vars arg fi habs hstat hrec hdir hne
    have hcb : CommandBuild log env cl = buildRun log env vars arg := by
      simp [CommandBuild, hp, ha]
    rw [hcb]
    exact ⟨_, _, h⟩

/-- C4: the context the build command passes to `StepTidyConfig` and `Compile`
carries the disable-action marker if and only if the flag `postScriptEnabled`
(`-p`) is not given. -/
theorem build_disable_action_iff (log : Logger) (env : BuildEnv) (cl : CommandLine) :
    ∀ e ∈ (CommandBuild log env cl).trace, ∀ ctx, e.callContext = some ctx →
      (ctx.isDisableAction = true ↔ cl.boolGiven "postScriptEnabled" "p" = false) := by
  intro e he ctx hctx
  obtain ⟨vars, arg, fi, hp, -, -, hc, -⟩ :=
    CommandBuild_calls log env cl e he (Or.inl (by simp [hctx]))
  rw [hctx, Option.some.injEq] at hc
  rw [hc, buildContext_isDisableAction, (parseFlags_build_given cl vars hp).2.1]
  simp

/-- Two runs of the build command on the file `/work/a.proto`: without `-p`
the context handed to `StepTidyConfig` carries the disable-action marker, with
`-p` the context handed over is the bare one and does not. -/
theorem build_disable_action_iff_witness :
    ((Context.withDisableAction Context.background).isDisableAction = true ↔
      CommandLine.boolGiven ⟨[], ["/work/a.proto"]⟩ "postScriptEnabled" "p" = false) ∧
    (Context.background.isDisableAction = true ↔
      CommandLine.boolGiven ⟨[(FlagRef.short "p", FlagValue.bool true)], ["/work/a.proto"]⟩
        "postScriptEnabled" "p" = false) :=
  ⟨build_disable_action_iff ⟨true⟩ compileFailsEnv ⟨[], ["/work/a.proto"]⟩
      (Event.stepTidyConfig (Context.withDisableAction Context.background) ["/work/a.proto"] none)
      (by decide) (Context.withDisableAction Context.background) rfl,
    build_disable_action_iff ⟨true⟩ compileFailsEnv
      ⟨[(FlagRef.short "p", FlagValue.bool true)], ["/work/a.proto"]⟩
      (Event.stepTidyConfig Context.background ["/work/a.proto"] none)
      (by decide) Context.background rfl⟩

theorem Event.isEarlyLog_cases {e : Event} (h : e.isEarlyLog = true) :
    e.callErr = none ∧ ((∃ format args, e = Event.logInfo format args) ∨ e.isFatal = true) := by
  cases e <;> simp_all [Event.isEarlyLog, Event.callErr, Event.isFatal]

/-- Whatever the logger does, a failure of `StepTidyConfig` is logged through
`LogFatal` and the success message is not logged. -/
theorem build_tidy_error_fatal (log : Logger) (env : BuildEnv) (cl : CommandLine) :
    ∀ ctx ts err, Event.stepTidyConfig ctx ts (some err) ∈ (CommandBuild log env cl).trace →
      Event.logFatal [] "failed to tidy config: %+v" [err] ∈ (CommandBuild log env cl).trace ∧
      Event.logInfo buildSucceed [] ∉ (CommandBuild log env cl).trace := by
  intro ctx ts err hm
  obtain ⟨pre, tail, htr, hpre, htail⟩ := CommandBuild_shape log env cl
  rw [htr] at hm ⊢
  have hnt : ∀ ctx ts r, Event.stepTidyConfig ctx ts r ∉ pre := fun ctx ts r hm =>
    (Event.isEarlyLog_not_call (hpre _ hm)).2.2.2.2.2 ctx ts r rfl
  have hns : Event.logInfo buildSucceed [] ∉ pre := fun hm =>
    (Event.isEarlyLog_not_call (hpre _ hm)).2.2.2.1 rfl
  rcases htail with rfl | ⟨vars, arg, fi, -, -, -, rfl⟩
  · simp [hnt] at hm
  · generalize buildContext vars = c at hm ⊢
    generalize referenceTargets env vars.recursive (env.abs arg).1 fi.isDir = targets at hm ⊢
    rcases buildTargets_cases log env c targets with ⟨-, h⟩ | ⟨-, e, -, h⟩ | ⟨-, -, e, -, h⟩ |
      ⟨-, -, -, h⟩
    · rw [h] at hm
      simp [hnt] at hm
    · rw [h] at hm ⊢
      simp [hnt] at hm
      obtain ⟨-, -, rfl⟩ := hm
      simp [hns]
    · rw [h] at hm
      cases hf : log.fatalReturns <;> simp [hf, hnt] at hm
    · rw [h] at hm
      simp [hnt] at hm

/-- With a logger whose `LogFatal` ends the process, a run in which
`StepTidyConfig` or `Compile` returns an error logs a fatal message and not the
success message, and the success message is logged only after both calls
returned no error. -/
theorem build_error_exit_core (log : Logger) (env : BuildEnv) (cl : CommandLine)
    (hlog : log.fatalReturns = false) :
    (∀ e ∈ (CommandBuild log env cl).trace, e.callErr ≠ none →
      (∃ x ∈ (CommandBuild log env cl).trace, x.isFatal = true) ∧
      Event.logInfo buildSucceed [] ∉ (CommandBuild log env cl).trace) ∧
    (Event.logInfo buildSucceed [] ∈ (CommandBuild log env cl).trace →
      (∃ ctx ts, Event.stepTidyConfig ctx ts none ∈ (CommandBuild log env cl).trace ∧
        Event.compile ctx ts none ∈ (CommandBuild log env cl).trace) ∧
      ∀ e ∈ (CommandBuild log env cl).trace, e.callErr = none) := by
  obtain ⟨pre, tail, htr, hpre, htail⟩ := CommandBuild_shape log env cl
  rw [htr]
  have hns : Event.logInfo buildSucceed [] ∉ pre := fun hm =>
    (Event.isEarlyLog_not_call (hpre _ hm)).2.2.2.1 rfl
  have hne : ∀ e ∈ pre, e.callErr = none := fun e he => (Event.isEarlyLog_cases (hpre e he)).1
  rcases htail with rfl | ⟨vars, arg, fi, -, -, -, rfl⟩
  · refine ⟨?_, ?_⟩
    · intro e he hc
      simp only [List.append_nil] at he
      exact absurd (hne e he) hc
    · intro hm
      simp only [List.append_nil] at hm
      exact absurd hm hns
  · generalize buildContext vars = c
    generalize referenceTargets env vars.recursive (env.abs arg).1 fi.isDir = targets
    rcases buildTargets_cases log env c targets with ⟨-, h⟩ | ⟨-, e, -, h⟩ | ⟨-, -, e, -, h⟩ |
      ⟨-, -, -, h⟩
    · rw [h]
      refine ⟨?_, ?_⟩
      · intro x hx hc
        simp only [List.mem_append, List.mem_singleton] at hx
        rcases hx with hx | rfl
        · exact absurd (hne x hx) hc
        · simp [Event.callErr] at hc
      · intro hm
        simp [hns] at hm
    · rw [h]
      refine ⟨?_, ?_⟩
      · intro x _ _
        exact ⟨⟨Event.logFatal [] "failed to tidy config: %+v" [e], by simp, rfl⟩,
          by simp [hns]⟩
      · intro hm
        simp [hns] at hm
    · rw [h, hlog]
      refine ⟨?_, ?_⟩
      · intro x _ _
        exact ⟨⟨Event.logFatal [] "failed to compile: %+v" [e], by simp, rfl⟩,
          by simp [hns]⟩
      · intro hm
        simp [hns] at hm
    · rw [h]
      refine ⟨?_, ?_⟩
      · intro x hx hc
        simp only [List.mem_append, List.mem_cons, List.not_mem_nil, or_false] at hx
        rcases hx with hx | rfl | rfl | rfl
        · exact absurd (hne x hx) hc
        · simp [Event.callErr] at hc
        · simp [Event.callErr] at hc
        · simp [Event.callErr] at hc
      · intro _
        refine ⟨⟨c, targets, by simp, by simp⟩, ?_⟩
        intro x hx
        simp only [List.mem_append, List.mem_cons, List.not_mem_nil, or_false] at hx
        rcases hx with hx | rfl | rfl | rfl
        · exact hne x hx
        · rfl
        · rfl
        · rfl

/-- The end of a build run on a non-empty target list: `StepTidyConfig` is
called; when it returns no error `Compile` is called; when that returns no
error either the success message is logged. -/
theorem buildTargets_progress (log : Logger) (env : BuildEnv) (ctx : Context) (ts : List String)
    (hts : ts ≠ []) :
    Event.stepTidyConfig ctx ts (env.stepTidyConfig ctx ts) ∈ (buildTargets log env ctx ts).trace ∧
    (env.stepTidyConfig ctx ts = none →
      Event.compile ctx ts (env.compile ctx ts) ∈ (buildTargets log env ctx ts).trace ∧
      (env.compile ctx ts = none →
        Event.logInfo buildSucceed [] ∈ (buildTargets log env ctx ts).trace)) := by
  refine ⟨buildTargets_first log env ctx ts hts, ?_⟩
  intro h1
  rcases buildTargets_cases log env ctx ts with ⟨h0, -⟩ | ⟨-, err, h1e, -⟩ | ⟨-, -, err, h2, h⟩ |
    ⟨-, -, h2, h⟩
  · exact absurd h0 hts
  · rw [h1] at h1e
    cases h1e
  · rw [h, h2]
    exact ⟨by simp, fun hc => by cases hc⟩
  · rw [h, h2]
    exact ⟨by simp, fun _ => by simp⟩

/-- When nothing fails before the targets are known, every call of the end of
the run on the reference target list is a call of `Run`. -/
theorem buildRun_reaches_targets (log : Logger) (env : BuildEnv) (vars : BuildVars)
    (arg : String) (fi : FileInfo) (habs : (env.abs arg).2 = none)
    (hstat : env.stat (env.abs arg).1 = (some fi, none))
    (hrec : (env.getFilesWithExtRecursively (env.abs arg).1 ".proto").2 = none)
    (hdir : (env.getFilesWithExt (env.abs arg).1 ".proto").2 = none) :
    ∀ e ∈ (buildTargets log env (buildContext vars)
        (referenceTargets env vars.recursive (env.abs arg).1 fi.isDir)).trace,
      e ∈ (buildRun log env vars arg).trace := by
  intro e hfirst
  unfold buildRun
  rcases ha : env.abs arg with ⟨target, aerr⟩
  rw [ha] at habs hstat hrec hdir hfirst
  simp only at habs hstat hrec hdir hfirst
  subst habs
  simp only [hstat, buildStat]
  cases hd : fi.isDir with
  | false =>
    rw [hd] at hfirst
    simpa [referenceTargets] using hfirst
  | true =>
    rw [hd] at hfirst
    simp only [if_true, buildDir, Run.cons]
    cases hr : vars.recursive with
    | true =>
      rw [hr] at hfirst
      rcases hw : env.getFilesWithExtRecursively target ".proto" with ⟨l, werr⟩
      have hl : referenceTargets env true target true = l := by simp [referenceTargets, hw]
      rw [hw] at hrec
      simp only at hrec
      subst hrec
      rw [hl] at hfirst
      simp [hfirst]
    | false =>
      rw [hr] at hfirst
      rcases hw : env.getFilesWithExt target ".proto" with ⟨l, werr⟩
      have hl : referenceTargets env false target true = l := by simp [referenceTargets, hw]
      rw [hw] at hdir
      simp only at hdir
      subst hdir
      rw [hl] at hfirst
      simp [hfirst]

/-- C2: `log.LogFatal` ends the process (the exit contract: a fatal message and
a non-zero exit).  Then in every run of the build command in which
`StepTidyConfig` or `Compile` returns an error a fatal message is logged
through `LogFatal` and the success message is not logged, and the success
message is logged only when both calls were made and returned no error.  Such
runs are there: when nothing fails before the targets are known and there is a
target, `StepTidyConfig` is called, `Compile` is called when it returns no
error, and the success message is logged when `Compile` returns no error. -/
theorem build_error_fatal_no_succeed (log : Logger) (env : BuildEnv) (cl : CommandLine)
    (hlog : log.fatalReturns = false) :
    (∀ e ∈ (CommandBuild log env cl).trace, e.callErr ≠ none →
      (∃ x ∈ (CommandBuild log env cl).trace, x.isFatal = true) ∧
      Event.logInfo buildSucceed [] ∉ (CommandBuild log env cl).trace) ∧
    (Event.logInfo buildSucceed [] ∈ (CommandBuild log env cl).trace →
      (∃ ctx ts, Event.stepTidyConfig ctx ts none ∈ (CommandBuild log env cl).trace ∧
        Event.compile ctx ts none ∈ (CommandBuild log env cl).trace) ∧
      ∀ e ∈ (CommandBuild log env cl).trace, e.callErr = none) ∧
    (∀ vars arg fi,
      parseFlags buildFlags BuildVars.set cl.flags BuildVars.initial = some vars →
      cl.args = [arg] → (env.abs arg).2 = none → env.stat (env.abs arg).1 = (some fi, none) →
      (env.getFilesWithExtRecursively (env.abs arg).1 ".proto").2 = none →
      (env.getFilesWithExt (env.abs arg).1 ".proto").2 = none →
      referenceTargets env vars.recursive (env.abs arg).1 fi.isDir ≠ [] →
      Event.stepTidyConfig (buildContext vars)
          (referenceTargets env vars.recursive (env.abs arg).1 fi.isDir)
          (env.stepTidyConfig (buildContext vars)
            (referenceTargets env vars.recursive (env.abs arg).1 fi.isDir)) ∈
        (CommandBuild log env cl).trace ∧
      (env.stepTidyConfig (buildContext vars)
          (referenceTargets env vars.recursive (env.abs arg).1 fi.isDir) = none →
        Event.compile (buildContext vars)
            (referenceTargets env vars.recursive (env.abs arg).1 fi.isDir)
            (env.compile (buildContext vars)
              (referenceTargets env vars.recursive (env.abs arg).1 fi.isDir)) ∈
          (CommandBuild log env cl).trace ∧
        (env.compile (buildContext vars)
            (referenceTargets env vars.recursive (env.abs arg).1 fi.isDir) = none →
          Event.logInfo buildSucceed [] ∈ (CommandBuild log env cl).trace))) := by
  obtain ⟨h1, h2⟩ := build_error_exit_core log env cl hlog
  refine ⟨h1, h2, ?_⟩
  intro vars arg fi hp ha habs hstat hrec hdir hne
  have hcb : CommandBuild log env cl = buildRun log env vars arg := by
    simp [CommandBuild, hp, ha]
  rw [hcb]
  have hreach := buildRun_reaches_targets log env vars arg fi habs hstat hrec hdir
  obtain ⟨p1, p2⟩ := buildTargets_progress log env (buildContext vars) _ hne
  refine ⟨hreach _ p1, fun ht => ?_⟩
  obtain ⟨p3, p4⟩ := p2 ht
  exact ⟨hreach _ p3, fun hc => hreach _ (p4 hc)⟩

/-- Three runs of the build command on the file `/work/a.proto` with a logger
whose `LogFatal` ends the process: `StepTidyConfig` fails, `Compile` fails,
nothing fails.  The two failing runs end with the fatal message and the
process exits; the success message is logged in the third only. -/
theorem build_error_fatal_no_succeed_witness :
    CommandBuild ⟨false⟩ tidyFailsEnv ⟨[], ["/work/a.proto"]⟩ =
      ⟨[Event.stepTidyConfig (Context.withDisableAction Context.background) ["/work/a.proto"]
          (some "no such version"),
        Event.logFatal [] "failed to tidy config: %+v" ["no such version"]], Outcome.exited⟩ ∧
    CommandBuild ⟨false⟩ compileFailsEnv ⟨[], ["/work/a.proto"]⟩ =
      ⟨[Event.stepTidyConfig (Context.withDisableAction Context.background) ["/work/a.proto"] none,
        Event.compile (Context.withDisableAction Context.background) ["/work/a.proto"]
          (some "exit status 1"),
        Event.logFatal [] "failed to compile: %+v" ["exit status 1"]], Outcome.exited⟩ ∧
    CommandBuild ⟨false⟩ buildOkEnv ⟨[], ["/work/a.proto"]⟩ =
      ⟨[Event.stepTidyConfig (Context.withDisableAction Context.background) ["/work/a.proto"] none,
        Event.compile (Context.withDisableAction Context.background) ["/work/a.proto"] none,
        Event.logInfo "succeed! you are ready to go :)" []], Outcome.returned⟩ ∧
    ((∃ x ∈ (CommandBuild ⟨false⟩ compileFailsEnv ⟨[], ["/work/a.proto"]⟩).trace,
        x.isFatal = true) ∧
      Event.logInfo buildSucceed [] ∉
        (CommandBuild ⟨false⟩ compileFailsEnv ⟨[], ["/work/a.proto"]⟩).trace) :=
  ⟨rfl, rfl, rfl,
    (build_error_fatal_no_succeed ⟨false⟩ compileFailsEnv ⟨[], ["/work/a.proto"]⟩ rfl).1
      (Event.compile (Context.withDisableAction Context.background) ["/work/a.proto"]
        (some "exit status 1")) (by decide) (by decide)⟩

/-- The same run as in `compileFailsEnv`, with a logger whose `LogFatal` returns
to its caller: after the fatal message `Run` goes on to the success message,
since the `Compile` branch has no `return`. -/
theorem build_compile_error_then_succeed :
    CommandBuild ⟨true⟩ compileFailsEnv ⟨[], ["/work/a.proto"]⟩ =
      ⟨[Event.stepTidyConfig (Context.withDisableAction Context.background) ["/work/a.proto"] none,
        Event.compile (Context.withDisableAction Context.background) ["/work/a.proto"]
          (some "exit status 1"),
        Event.logFatal [] "failed to compile: %+v" ["exit status 1"],
        Event.logInfo "succeed! you are ready to go :)" []], Outcome.returned⟩ := by
  rfl

/-- C8, what the code registers instead: the flags of the build command are
`--recursive`/`-r` and `--postScriptEnabled`/`-p`, none has the short name `a`,
and the documented command line `powerproto build -r -a dir` is refused before
`Run` is called. -/
theorem build_no_short_flag_a :
    buildFlags.map (fun f => (f.target, f.name, f.shorthand)) =
      [(BuildVar.recursive, "recursive", "r"),
       (BuildVar.postScriptEnabled, "postScriptEnabled", "p")] ∧
    (∀ f ∈ buildFlags, f.shorthand ≠ "a") ∧
    ∀ (log : Logger) (env : BuildEnv),
      CommandBuild log env
        ⟨[(FlagRef.short "r", FlagValue.bool true), (FlagRef.short "a", FlagValue.bool true)],
          ["dir"]⟩ = ⟨[], Outcome.usage⟩ := by
  refine ⟨rfl, ?_, ?_⟩
  · intro f hf
    simp [buildFlags] at hf
    rcases hf with rfl | rfl <;> decide
  · intro log env
    rfl

/-- C9, refuted as stated: no flag of the build command binds the variable
`dryRun`, and there is no logger, environment and command line for which a
context passed to `StepTidyConfig` or `Compile` is marked dry-run. -/
theorem build_no_dry_run_flag :
    buildFlags.filter (fun f => f.target == BuildVar.dryRun) = [] ∧
    ¬ ∃ (log : Logger) (env : BuildEnv) (cl : CommandLine),
      ∃ e ∈ (CommandBuild log env cl).trace, ∃ ctx, e.callContext = some ctx ∧
        ctx.isDryRun = true := by
  refine ⟨rfl, ?_⟩
  rintro ⟨log, env, cl, e, he, ctx, hctx, hdry⟩
  rw [CommandBuild_not_dryRun log env cl e he ctx hctx] at hdry
  exact Bool.false_ne_true hdry

/-- C9, amended: the build command registers the flags `recursive` and
`postScriptEnabled` only, the variable `dryRun` keeps its initial value false
on every command line, and no context passed to `StepTidyConfig` or `Compile`
is marked dry-run. -/
theorem build_context_never_dry_run (log : Logger) (env : BuildEnv) (cl : CommandLine) :
    (∀ f ∈ buildFlags, f.target ≠ BuildVar.dryRun) ∧
    (∀ vars, parseFlags buildFlags BuildVars.set cl.flags BuildVars.initial = some vars →
      vars.dryRun = false) ∧
    ∀ e ∈ (CommandBuild log env cl).trace, ∀ ctx, e.callContext = some ctx →
      ctx.isDryRun = false := by
  refine ⟨?_, fun vars hp => (parseFlags_build_given cl vars hp).2.2,
    CommandBuild_not_dryRun log env cl⟩
  intro f hf
  simp [buildFlags] at hf
  rcases hf with rfl | rfl <;> decide

/-! ### Lemmas on the function `tidy` -/

/-- The six ways through the function `tidy`. -/
theorem tidy_cases (env : TidyEnv) (h : List Event) (ctx : Context) (pm : PluginManager)
    (path : String) :
    (∃ err, tidy env h ctx pm path =
      (tidyTrace0 ctx ++ [Event.stepTidyConfigFile ctx pm path (some err)], some err)) ∨
    (∃ items err, tidy env h ctx pm path =
      (tidyTrace1 ctx pm path ++ [Event.loadConfigItems path items (some err)], some err)) ∨
    (∃ items, env.loadConfigItems (h ++ tidyTrace1 ctx pm path) path = (items, none) ∧
      ((∃ err, tidy env h ctx pm path =
        (tidyTrace2 ctx pm path items ++ [Event.stepInstallProtoc ctx pm items (some err)],
          some err)) ∨
      (∃ err, tidy env h ctx pm path =
        (tidyTrace3 ctx pm path items ++ [Event.stepInstallRepositories ctx pm items (some err)],
          some err)) ∨
      (∃ err, tidy env h ctx pm path =
        (tidyTrace4 ctx pm path items ++ [Event.stepInstallPlugins ctx pm items (some err)],
          some err)) ∨
      tidy env h ctx pm path =
        (tidyTrace4 ctx pm path items ++ [Event.stepInstallPlugins ctx pm items none], none))) := by
  rcases h0 : env.stepTidyConfigFile (h ++ tidyTrace0 ctx) ctx pm path with _ | err
  · rcases h1 : env.loadConfigItems (h ++ tidyTrace1 ctx pm path) path with ⟨items, _ | err⟩
    · right; right
      refine ⟨items, rfl, ?_⟩
      rcases h2 : env.stepInstallProtoc (h ++ tidyTrace2 ctx pm path items) ctx pm items
        with _ | err
      · rcases h3 : env.stepInstallRepositories (h ++ tidyTrace3 ctx pm path items) ctx pm items
          with _ | err
        · rcases h4 : env.stepInstallPlugins (h ++ tidyTrace4 ctx pm path items) ctx pm items
            with _ | err
          · right; right; right
            simp only [tidyTrace0, tidyTrace1, tidyTrace2, tidyTrace3, tidyTrace4] at h0 h1 h2 h3 h4 ⊢
            simp only [tidy, h0, h1, h2, h3, h4]
          · right; right; left
            refine ⟨err, ?_⟩
            simp only [tidyTrace0, tidyTrace1, tidyTrace2, tidyTrace3, tidyTrace4] at h0 h1 h2 h3 h4 ⊢
            simp only [tidy, h0, h1, h2, h3, h4]
        · right; left
          refine ⟨err, ?_⟩
          simp only [tidyTrace0, tidyTrace1, tidyTrace2, tidyTrace3] at h0 h1 h2 h3 ⊢
          simp only [tidy, h0, h1, h2, h3]
      · left
        refine ⟨err, ?_⟩
        simp only [tidyTrace0, tidyTrace1, tidyTrace2] at h0 h1 h2 ⊢
        simp only [tidy, h0, h1, h2]
    · right; left
      refine ⟨items, err, ?_⟩
      simp only [tidyTrace0, tidyTrace1] at h0 h1 ⊢
      simp only [tidy, h0, h1]
  · left
    refine ⟨err, ?_⟩
    simp only [tidyTrace0] at h0 ⊢
    simp only [tidy, h0]

/-- Every event of the function `tidy` is one of its own. -/
theorem tidy_inner (env : TidyEnv) (h : List Event) (ctx : Context) (pm : PluginManager)
    (path : String) : ∀ e ∈ (tidy env h ctx pm path).1, e.isInner = true := by
  rcases tidy_cases env h ctx pm path with ⟨err, ht⟩ | ⟨items, err, ht⟩ |
    ⟨items, -, ⟨err, ht⟩ | ⟨err, ht⟩ | ⟨err, ht⟩ | ht⟩ <;>
  · rw [ht]
    simp [tidyTrace0, tidyTrace1, tidyTrace2, tidyTrace3, tidyTrace4, Event.isInner]

theorem Event.isInner_props {e : Event} (h : e.isInner = true) :
    e.check = none ∧ e.tidiedPath = none ∧ e.loggedPath = none ∧ e.isFatal = false ∧
      e.isListConfigPaths = false ∧ e.level = none ∧ e.tidyContext = none ∧
      ∀ p r, e ≠ Event.tidyReturn p r := by
  cases e <;> simp_all [Event.isInner, Event.check, Event.tidiedPath, Event.loggedPath,
    Event.isFatal, Event.isListConfigPaths, Event.level, Event.tidyContext]

theorem filterMap_inner {α : Type} (f : Event → Option α)
    (hf : ∀ e, e.isInner = true → f e = none) (l : List Event)
    (hl : ∀ e ∈ l, e.isInner = true) : l.filterMap f = [] := by
  rw [List.filterMap_eq_nil_iff]
  intro e he
  exact hf e (hl e he)

/-! ### Lemmas on the loop of the tidy command -/

/-- The three ways through the body of the loop: `LogFatal` ends the process
after `IsFileExists` failed, the path does not exist, or the path is tidied. -/
theorem tidyPath_cases (log : Logger) (env : TidyEnv) (ctx : Context) (pm : PluginManager)
    (h : List Event) (path : String) (m : List String) :
    ∃ ex err,
      (err ≠ none ∧ log.fatalReturns = false ∧
        tidyPath log env ctx pm h path m =
          (Event.isFileExists path ex err :: tidyFailed path err, none)) ∨
      (ex = false ∧
        tidyPath log env ctx pm h path m =
          (Event.isFileExists path ex err :: tidyFailed path err, some m)) ∨
      (ex = true ∧ ∃ inner r, (∀ e ∈ inner, e.isInner = true) ∧
        tidyPath log env ctx pm h path m =
          (Event.isFileExists path ex err :: tidyFailed path err ++
            [Event.logInfo "tidy %s" [path], Event.tidyCall ctx pm path] ++ inner ++
            Event.tidyReturn path r :: tidyFailed path r,
           if r.isSome && !log.fatalReturns then none else some (mapInsert m path))) := by
  rcases hx : env.isFileExists h path with ⟨ex, err⟩
  refine ⟨ex, err, ?_⟩
  by_cases h1 : (err.isSome && !log.fatalReturns) = true
  · left
    have h1' := h1
    simp only [Bool.and_eq_true, Bool.not_eq_true', Option.isSome_iff_ne_none] at h1'
    refine ⟨h1'.1, h1'.2, ?_⟩
    simp only [tidyPath, hx, h1, if_true]
  · right
    cases ex with
    | false =>
      left
      refine ⟨rfl, ?_⟩
      simp only [tidyPath, hx, h1]
      simp
    | true =>
      right
      refine ⟨rfl, ?_⟩
      rcases ht : tidy env (h ++ (Event.isFileExists path true err :: tidyFailed path err ++
        [Event.logInfo "tidy %s" [path], Event.tidyCall ctx pm path])) ctx pm path with ⟨inner, r⟩
      refine ⟨inner, r, ?_, ?_⟩
      · have := tidy_inner env (h ++ (Event.isFileExists path true err :: tidyFailed path err ++
          [Event.logInfo "tidy %s" [path], Event.tidyCall ctx pm path])) ctx pm path
        rw [ht] at this
        exact this
      · simp only [tidyPath, hx, h1]
        simp only [Bool.not_true, Bool.false_eq_true, if_false, ht]
        split <;> rfl

theorem filterMap_tidyFailed {α : Type} (f : Event → Option α)
    (hf : ∀ a b c, f (Event.logFatal a b c) = none) (path : String) (err : Option Err) :
    (tidyFailed path err).filterMap f = [] := by
  cases err <;> simp [tidyFailed, hf]

theorem tidyFailed_isFatal (path : String) (err : Option Err) :
    ∀ e ∈ tidyFailed path err, e.isFatal = true := by
  cases err <;> simp [tidyFailed, Event.isFatal]

theorem tidyFailed_eq_nil (path : String) (err : Option Err)
    (h : ∀ e ∈ tidyFailed path err, e.isFatal = false) : err = none := by
  cases err with
  | none => rfl
  | some e => simp [tidyFailed, Event.isFatal] at h

/-- What every run of the body of the loop does: one call of `IsFileExists`,
on the path; no path is logged as tidied, `ListConfigPaths` and `SetLogLevel`
are not called, and `tidy` is invoked with the context of the loop only. -/
theorem tidyPath_events (log : Logger) (env : TidyEnv) (ctx : Context) (pm : PluginManager)
    (h : List Event) (path : String) (m : List String) :
    (∃ ex, (tidyPath log env ctx pm h path m).1.filterMap Event.check = [(path, ex)]) ∧
    (tidyPath log env ctx pm h path m).1.filterMap Event.loggedPath = [] ∧
    ∀ e ∈ (tidyPath log env ctx pm h path m).1,
      e.isListConfigPaths = false ∧ e.level = none ∧ ∀ c, e.tidyContext = some c → c = ctx := by
  have hc := filterMap_tidyFailed Event.check (fun _ _ _ => rfl) path
  have hl := filterMap_tidyFailed Event.loggedPath (fun _ _ _ => rfl) path
  have hF : ∀ err, ∀ e ∈ tidyFailed path err,
      e.isListConfigPaths = false ∧ e.level = none ∧ ∀ c, e.tidyContext = some c → c = ctx := by
    intro err e he
    cases err <;> simp [tidyFailed] at he
    subst he
    simp [Event.isListConfigPaths, Event.level, Event.tidyContext]
  obtain ⟨ex, err, ⟨-, -, ht⟩ | ⟨-, ht⟩ | ⟨-, inner, r, hin, ht⟩⟩ :=
    tidyPath_cases log env ctx pm h path m
  · rw [ht]
    refine ⟨⟨ex, by simp [Event.check, hc]⟩, by simp [Event.loggedPath, hl], ?_⟩
    intro e he
    rcases List.mem_cons.1 he with rfl | he
    · simp [Event.isListConfigPaths, Event.level, Event.tidyContext]
    · exact hF err e he
  · rw [ht]
    refine ⟨⟨ex, by simp [Event.check, hc]⟩, by simp [Event.loggedPath, hl], ?_⟩
    intro e he
    rcases List.mem_cons.1 he with rfl | he
    · simp [Event.isListConfigPaths, Event.level, Event.tidyContext]
    · exact hF err e he
  · rw [ht]
    have hci := filterMap_inner Event.check (fun e he => (Event.isInner_props he).1) inner hin
    have hli := filterMap_inner Event.loggedPath
      (fun e he => (Event.isInner_props he).2.2.1) inner hin
    refine ⟨⟨ex, by simp [Event.check, hc, hci]⟩, by simp [Event.loggedPath, hl, hli], ?_⟩
    intro e he
    simp only [List.cons_append, List.mem_cons, List.mem_append, List.not_mem_nil, or_false,
      List.nil_append] at he
    rcases he with rfl | ((he | rfl | rfl) | he) | rfl | he
    · simp [Event.isListConfigPaths, Event.level, Event.tidyContext]
    · exact hF err e he
    · simp [Event.isListConfigPaths, Event.level, Event.tidyContext]
    · simp [Event.isListConfigPaths, Event.level, Event.tidyContext]
    · have := Event.isInner_props (hin e he)
      exact ⟨this.2.2.2.2.1, this.2.2.2.2.2.1, by simp [this.2.2.2.2.2.2.1]⟩
    · simp [Event.isListConfigPaths, Event.level, Event.tidyContext]
    · exact hF r e he

/-- A run of the body of the loop in which `LogFatal` is not called: `tidy` is
invoked exactly when the path exists, it returns no error, and the path is
then put into `configMap`. -/
theorem tidyPath_noFatal (log : Logger) (env : TidyEnv) (ctx : Context) (pm : PluginManager)
    (h : List Event) (path : String) (m : List String)
    (hnf : ∀ e ∈ (tidyPath log env ctx pm h path m).1, e.isFatal = false) :
    ∃ ex, (tidyPath log env ctx pm h path m).1.filterMap Event.check = [(path, ex)] ∧
      (tidyPath log env ctx pm h path m).1.filterMap Event.tidiedPath =
        (if ex then [path] else []) ∧
      (tidyPath log env ctx pm h path m).2 = some (if ex then mapInsert m path else m) ∧
      (ex = true → Event.tidyReturn path none ∈ (tidyPath log env ctx pm h path m).1) ∧
      ∀ p err, Event.tidyReturn p (some err) ∉ (tidyPath log env ctx pm h path m).1 := by
  obtain ⟨ex, err, ⟨hne, -, ht⟩ | ⟨hex, ht⟩ | ⟨hex, inner, r, hin, ht⟩⟩ :=
    tidyPath_cases log env ctx pm h path m
  · exfalso
    rw [ht] at hnf
    exact hne (tidyFailed_eq_nil path _ (fun e he => hnf e (List.mem_cons_of_mem _ he)))
  · rw [ht] at hnf ⊢
    have herr : err = none := tidyFailed_eq_nil path _ (fun e he => hnf e (List.mem_cons_of_mem _ he))
    subst herr hex
    refine ⟨false, ?_⟩
    simp [tidyFailed, Event.check, Event.tidiedPath]
  · rw [ht] at hnf ⊢
    have herr : err = none :=
      tidyFailed_eq_nil path _ (fun e he => hnf e (by simp [he]))
    have hr : r = none := tidyFailed_eq_nil path _ (fun e he => hnf e (by simp [he]))
    subst herr hr hex
    have hci := filterMap_inner Event.check (fun e he => (Event.isInner_props he).1) inner hin
    have hti := filterMap_inner Event.tidiedPath
      (fun e he => (Event.isInner_props he).2.1) inner hin
    refine ⟨true, ?_⟩
    simp only [tidyFailed, List.cons_append, List.nil_append, List.append_nil]
    refine ⟨by simp [Event.check, hci], by simp [Event.tidiedPath, hti], by simp, by simp, ?_⟩
    intro p e hm
    simp only [List.mem_cons, List.mem_append, List.not_mem_nil, or_false] at hm
    rcases hm with hm | hm | hm | hm | hm
    · cases hm
    · cases hm
    · cases hm
    · exact (Event.isInner_props (hin _ hm)).2.2.2.2.2.2.2 p (some e) rfl
    · cases hm

theorem mem_mapInsert (m : List String) (q p : String) :
    p ∈ mapInsert m q ↔ p ∈ m ∨ p = q := by
  unfold mapInsert
  split
  · constructor
    · exact Or.inl
    · rintro (h | rfl)
      · exact h
      · assumption
  · simp

theorem nodup_mapInsert (m : List String) (q : String) (hm : m.Nodup) :
    (mapInsert m q).Nodup := by
  unfold mapInsert
  split
  · exact hm
  · rename_i hq
    rw [List.nodup_append]
    refine ⟨hm, List.nodup_singleton q, ?_⟩
    intro a ha hb
    rw [List.mem_singleton] at hb
    subst hb
    exact hq ha

theorem tidyReport_loggedPath (env : TidyEnv) (m : List String) :
    (tidyReport env m).trace.filterMap Event.loggedPath = env.mapOrder m := by
  simp only [tidyReport, List.filterMap_append, List.filterMap_cons, List.filterMap_nil]
  have h1 : Event.loggedPath (Event.logInfo "these following config files were tidied:" []) =
      none := rfl
  have h2 : Event.loggedPath (Event.logInfo "\r\nsucceeded, you are ready to go :)" []) =
      none := rfl
  have h3 : ∀ l : List String,
      (l.map (fun path => Event.logInfo "\t%s" [path])).filterMap Event.loggedPath = l := by
    intro l
    induction l with
    | nil => rfl
    | cons a l ih =>
      have ha : Event.loggedPath (Event.logInfo "\t%s" [a]) = some a := rfl
      simp only [List.map_cons, List.filterMap_cons, ha, ih]
  simp only [h1, h2, h3]
  simp

theorem tidyReport_events (env : TidyEnv) (m : List String) :
    ∀ e ∈ (tidyReport env m).trace,
      e.check = none ∧ e.tidiedPath = none ∧ e.isFatal = false ∧ e.isListConfigPaths = false ∧
      e.level = none ∧ e.tidyContext = none ∧ ∀ p r, e ≠ Event.tidyReturn p r := by
  intro e he
  simp only [tidyReport, List.mem_append, List.mem_singleton, List.mem_map] at he
  rcases he with (rfl | ⟨p, -, rfl⟩) | rfl <;>
    simp [Event.check, Event.tidiedPath, Event.isFatal, Event.isListConfigPaths, Event.level,
      Event.tidyContext]

/-- A property of every event of every run of the body of the loop and of the
report holds of every event of the loop. -/
theorem tidyLoop_forall (P : Event → Prop) (log : Logger) (env : TidyEnv) (ctx : Context)
    (pm : PluginManager)
    (hbody : ∀ h path m, ∀ e ∈ (tidyPath log env ctx pm h path m).1, P e)
    (hreport : ∀ m, ∀ e ∈ (tidyReport env m).trace, P e) :
    ∀ ts h m, ∀ e ∈ (tidyLoop log env ctx pm ts h m).trace, P e := by
  intro ts
  induction ts with
  | nil =>
    intro h m e he
    exact hreport m e he
  | cons path rest ih =>
    intro h m e he
    unfold tidyLoop at he
    have hb := hbody h path m
    rcases hp : tidyPath log env ctx pm h path m with ⟨t, _ | m1⟩
    · rw [hp] at he hb
      exact hb e he
    · rw [hp] at he hb
      simp only [List.mem_append] at he
      rcases he with he | he
      · exact hb e he
      · exact ih _ _ e he

/-- The paths the loop hands to `IsFileExists` are the first targets, in
order, and all of them when the run returns. -/
theorem tidyLoop_checked (log : Logger) (env : TidyEnv) (ctx : Context) (pm : PluginManager) :
    ∀ ts h m,
      (((tidyLoop log env ctx pm ts h m).trace.filterMap Event.check).map Prod.fst <+: ts) ∧
      ((tidyLoop log env ctx pm ts h m).outcome = Outcome.returned →
        ((tidyLoop log env ctx pm ts h m).trace.filterMap Event.check).map Prod.fst = ts) ∧
      (tidyLoop log env ctx pm ts h m).outcome ≠ Outcome.usage := by
  intro ts
  induction ts with
  | nil =>
    intro h m
    have hc : (tidyReport env m).trace.filterMap Event.check = [] :=
      List.filterMap_eq_nil_iff.2 (fun e he => (tidyReport_events env m e he).1)
    have hl : tidyLoop log env ctx pm [] h m = tidyReport env m := by simp only [tidyLoop]
    rw [hl, hc]
    exact ⟨List.prefix_refl _, fun _ => rfl, by simp [tidyReport]⟩
  | cons path rest ih =>
    intro h m
    obtain ⟨⟨ex, hc⟩, -, -⟩ := tidyPath_events log env ctx pm h path m
    unfold tidyLoop
    rcases hp : tidyPath log env ctx pm h path m with ⟨t, _ | m1⟩
    · rw [hp] at hc
      simp only [hc, List.map_cons, List.map_nil]
      exact ⟨⟨rest, rfl⟩, by simp, by simp⟩
    · rw [hp] at hc
      obtain ⟨ih1, ih2, ih3⟩ := ih (h ++ t) m1
      simp only [List.filterMap_append, hc, List.map_append, List.map_cons, List.map_nil,
        List.singleton_append]
      refine ⟨?_, ?_, ih3⟩
      · exact (List.prefix_cons_inj path).2 ih1
      · intro hout
        rw [ih2 hout]

/-- A run of the loop in which `LogFatal` is not called: it is the bodies, one
for each target in order, followed by the report; `tidy` is invoked on the
paths reported as existing, each invocation returns no error, and the keys of
`configMap` at the end are the ones at the start and the existing paths. -/
theorem tidyLoop_noFatal (log : Logger) (env : TidyEnv) (ctx : Context) (pm : PluginManager) :
    ∀ ts h m, (∀ e ∈ (tidyLoop log env ctx pm ts h m).trace, e.isFatal = false) → m.Nodup →
      ∃ body m1, (tidyLoop log env ctx pm ts h m).trace = body ++ (tidyReport env m1).trace ∧
        (tidyLoop log env ctx pm ts h m).outcome = Outcome.returned ∧
        (body.filterMap Event.check).map Prod.fst = ts ∧
        body.filterMap Event.tidiedPath =
          ((body.filterMap Event.check).filter (fun c => c.2)).map Prod.fst ∧
        body.filterMap Event.loggedPath = [] ∧
        m1.Nodup ∧
        (∀ p, p ∈ m1 ↔ p ∈ m ∨ (p, true) ∈ body.filterMap Event.check) ∧
        (∀ p ∈ m1, p ∈ m ∨ Event.tidyReturn p none ∈ body) ∧
        (∀ p err, Event.tidyReturn p (some err) ∉ body) := by
  intro ts
  induction ts with
  | nil =>
    intro h m _ hm
    refine ⟨[], m, ?_, ?_, rfl, rfl, rfl, hm, by simp, fun p hp => Or.inl hp, by simp⟩
    · simp [tidyLoop]
    · simp [tidyLoop, tidyReport]
  | cons path rest ih =>
    intro h m hnf hm
    have hev := (tidyPath_events log env ctx pm h path m).2.1
    have hnfb : ∀ e ∈ (tidyPath log env ctx pm h path m).1, e.isFatal = false := by
      intro e he
      apply hnf
      unfold tidyLoop
      rcases hp : tidyPath log env ctx pm h path m with ⟨t, _ | m1⟩
      · rw [hp] at he
        exact he
      · rw [hp] at he
        exact List.mem_append_left _ he
    obtain ⟨ex, hc, ht, hres, hret, hnone⟩ := tidyPath_noFatal log env ctx pm h path m hnfb
    rcases hp : tidyPath log env ctx pm h path m with ⟨t, res⟩
    rw [hp] at hc ht hres hret hnone hev
    simp only at hc ht hres hret hnone hev
    subst hres
    have hloop : tidyLoop log env ctx pm (path :: rest) h m =
        ⟨t ++ (tidyLoop log env ctx pm rest (h ++ t) (if ex then mapInsert m path else m)).trace,
          (tidyLoop log env ctx pm rest (h ++ t)
            (if ex then mapInsert m path else m)).outcome⟩ := by
      rw [tidyLoop, hp]
    rw [hloop] at hnf ⊢
    have hm1 : (if ex then mapInsert m path else m).Nodup := by
      cases ex
      · exact hm
      · exact nodup_mapInsert m path hm
    obtain ⟨body, m2, htr, hout, hchk, htid, hlog, hnd, hmem, hok, hbad⟩ :=
      ih (h ++ t) _ (fun e he => hnf e (List.mem_append_right _ he)) hm1
    refine ⟨t ++ body, m2, ?_, hout, ?_, ?_, ?_, hnd, ?_, ?_, ?_⟩
    · simp only [htr, List.append_assoc]
    · simp [List.filterMap_append, hc, hchk]
    · simp only [List.filterMap_append, hc, ht, htid, List.filter_append, List.map_append]
      cases ex <;> simp
    · simp [List.filterMap_append, hev, hlog]
    · intro p
      rw [hmem p, List.filterMap_append, hc]
      cases ex
      · simp
      · simp only [if_true, mem_mapInsert, List.singleton_append, List.mem_cons, Prod.mk.injEq,
          and_true]
        tauto
    · intro p hp
      rcases hok p hp with h1 | h1
      · cases ex
        · exact Or.inl h1
        · simp only [if_true, mem_mapInsert] at h1
          rcases h1 with h1 | rfl
          · exact Or.inl h1
          · exact Or.inr (List.mem_append_left _ (hret rfl))
      · exact Or.inr (List.mem_append_right _ h1)
    · intro p err hmm
      rcases List.mem_append.1 hmm with h1 | h1
      · exact hnone p err h1
      · exact hbad p err h1

/-! ### Lemmas on `Run` of the tidy command -/

theorem foldl_append_singleton {α β : Type} (f : α → β) (l : List α) :
    ∀ acc : List β, l.foldl (fun ts a => ts ++ [f a]) acc = acc ++ l.map f := by
  induction l with
  | nil => intro acc; simp
  | cons a l ih => intro acc; simp [ih]

theorem Event.isSetup_props {e : Event} (h : e.isSetup = true) :
    e.check = none ∧ e.tidiedPath = none ∧ e.loggedPath = none ∧ e.tidyContext = none ∧
      ∀ p r, e ≠ Event.tidyReturn p r := by
  cases e <;> simp_all [Event.isSetup, Event.check, Event.tidiedPath, Event.loggedPath,
    Event.tidyContext]

/-- The statements that fill `targets`: the targets are the reference list;
`ListConfigPaths` is called on the directory `Getwd` returned, and only when
there is no argument. -/
theorem tidyResolve_spec (log : Logger) (env : TidyEnv) (args : List String) :
    (∀ e ∈ (tidyResolve log env args).1, e.isSetup = true ∧ e.level = none) ∧
    (∀ ts, (tidyResolve log env args).2 = some ts → ts = referenceConfigPaths env args) ∧
    (args ≠ [] → (tidyResolve log env args).1 = []) ∧
    (∀ dir paths, Event.listConfigPaths dir paths ∈ (tidyResolve log env args).1 →
      dir = env.getwd.1 ∧ paths = env.listConfigPaths env.getwd.1) := by
  unfold tidyResolve referenceConfigPaths
  by_cases ha : args = []
  · subst ha
    rcases hg : env.getwd with ⟨dir, _ | err⟩
    · simp [Event.isSetup, Event.level]
    · cases hf : log.fatalReturns <;> simp [Event.isSetup, Event.level]
  · have hl : args.length ≠ 0 := by simpa using ha
    simp [hl, ha, foldl_append_singleton]

theorem tidyPluginManager_spec (log : Logger) (env : TidyEnv) :
    ∀ e ∈ (tidyPluginManager log env).1,
      e.isSetup = true ∧ e.level = none ∧ e.isListConfigPaths = false := by
  unfold tidyPluginManager
  rcases hg : env.newPluginManager with ⟨pm, _ | err⟩
  · simp [Event.isSetup, Event.level, Event.isListConfigPaths]
  · cases hf : log.fatalReturns <;> simp [Event.isSetup, Event.level, Event.isListConfigPaths]

theorem tidyContext_spec (vars : TidyVars) :
    (tidyContext vars).1.perCommandTimeout = some vars.perCommandTimeout ∧
    (tidyContext vars).1.isDebugMode = vars.debugMode ∧
    (tidyContext vars).2.filterMap Event.level =
      Level.info :: (if vars.debugMode then [Level.debug] else []) ∧
    ∀ e ∈ (tidyContext vars).2, e.isSetup = true ∧ e.isListConfigPaths = false := by
  rcases vars with ⟨d, t⟩
  cases d <;>
    simp [tidyContext, Context.perCommandTimeout, Context.isDebugMode, Event.level,
      Event.isSetup, Event.isListConfigPaths]

/-- The shape of `Run` of the tidy command: events made before the loop,
followed by nothing (`LogFatal` ended the process) or by the loop on the
reference list of config paths, with the context built from the flags. -/
theorem tidyRun_shape (log : Logger) (env : TidyEnv) (vars : TidyVars) (args : List String) :
    ∃ pre, (∀ e ∈ pre, e.isSetup = true) ∧
      pre.filterMap Event.level = Level.info :: (if vars.debugMode then [Level.debug] else []) ∧
      (args ≠ [] → ∀ e ∈ pre, e.isListConfigPaths = false) ∧
      (∀ dir paths, Event.listConfigPaths dir paths ∈ pre →
        dir = env.getwd.1 ∧ paths = env.listConfigPaths env.getwd.1) ∧
      (tidyRun log env vars args = ⟨pre, Outcome.exited⟩ ∨
        ∃ pm, tidyRun log env vars args =
          ⟨pre ++ (tidyLoop log env (tidyContext vars).1 pm (referenceConfigPaths env args)
              pre []).trace,
            (tidyLoop log env (tidyContext vars).1 pm (referenceConfigPaths env args)
              pre []).outcome⟩) := by
  obtain ⟨-, -, hlev, hctx⟩ := tidyContext_spec vars
  obtain ⟨hres, hts, hnil, hlist⟩ := tidyResolve_spec log env args
  have hpm := tidyPluginManager_spec log env
  unfold tidyRun
  rcases hc : tidyContext vars with ⟨ctx, t1⟩
  rw [hc] at hlev hctx
  simp only at hlev hctx
  rcases hr : tidyResolve log env args with ⟨t2, _ | ts⟩
  · rw [hr] at hres hnil hlist
    simp only at hres hnil hlist
    refine ⟨t1 ++ t2, ?_, ?_, ?_, ?_, Or.inl rfl⟩
    · intro e he
      rcases List.mem_append.1 he with he | he
      · exact (hctx e he).1
      · exact (hres e he).1
    · rw [List.filterMap_append, hlev,
        List.filterMap_eq_nil_iff.2 (fun e he => (hres e he).2), List.append_nil]
    · intro ha e he
      rw [hnil ha, List.append_nil] at he
      exact (hctx e he).2
    · intro dir paths hm
      rcases List.mem_append.1 hm with hm | hm
      · have := (hctx _ hm).2
        simp [Event.isListConfigPaths] at this
      · exact hlist dir paths hm
  · rw [hr] at hres hts hnil hlist
    simp only at hres hts hnil hlist
    have htsr := hts ts rfl
    subst htsr
    have hpre : ∀ t3, (∀ e ∈ t3, e.isSetup = true ∧ e.level = none ∧
        e.isListConfigPaths = false) →
        (∀ e ∈ t1 ++ t2 ++ t3, e.isSetup = true) ∧
        (t1 ++ t2 ++ t3).filterMap Event.level =
          Level.info :: (if vars.debugMode then [Level.debug] else []) ∧
        (args ≠ [] → ∀ e ∈ t1 ++ t2 ++ t3, e.isListConfigPaths = false) ∧
        (∀ dir paths, Event.listConfigPaths dir paths ∈ t1 ++ t2 ++ t3 →
          dir = env.getwd.1 ∧ paths = env.listConfigPaths env.getwd.1) := by
      intro t3 h3
      refine ⟨?_, ?_, ?_, ?_⟩
      · intro e he
        rcases List.mem_append.1 he with he | he
        · rcases List.mem_append.1 he with he | he
          · exact (hctx e he).1
          · exact (hres e he).1
        · exact (h3 e he).1
      · rw [List.filterMap_append, List.filterMap_append, hlev,
          List.filterMap_eq_nil_iff.2 (fun e he => (hres e he).2),
          List.filterMap_eq_nil_iff.2 (fun e he => (h3 e he).2.1), List.append_nil,
          List.append_nil]
      · intro ha e he
        rw [hnil ha, List.append_nil] at he
        rcases List.mem_append.1 he with he | he
        · exact (hctx e he).2
        · exact (h3 e he).2.2
      · intro dir paths hm
        rcases List.mem_append.1 hm with hm | hm
        · rcases List.mem_append.1 hm with hm | hm
          · have := (hctx _ hm).2
            simp [Event.isListConfigPaths] at this
          · exact hlist dir paths hm
        · have := (h3 _ hm).2.2
          simp [Event.isListConfigPaths] at this
    rcases hp : tidyPluginManager log env with ⟨t3, _ | pm⟩
    · rw [hp] at hpm
      obtain ⟨h1, h2, h3, h4⟩ := hpre t3 hpm
      exact ⟨t1 ++ t2 ++ t3, h1, h2, h3, h4, Or.inl rfl⟩
    · rw [hp] at hpm
      obtain ⟨h1, h2, h3, h4⟩ := hpre t3 hpm
      exact ⟨t1 ++ t2 ++ t3, h1, h2, h3, h4, Or.inr ⟨pm, rfl⟩⟩

/-- What parsing leaves in the two variables of the tidy command. -/
theorem parseFlags_tidy (fl : List (FlagRef × FlagValue)) :
    ∀ (s vars : TidyVars) (accD accT : Option FlagValue),
      parseFlags tidyFlags TidyVars.set fl s = some vars →
      s.debugMode = flagBool false accD →
      s.perCommandTimeout = flagDuration (Second * 300) accT →
      vars.debugMode = flagBool false (lastGiven "debug" "d" fl accD) ∧
      vars.perCommandTimeout = flagDuration (Second * 300) (lastGiven "timeout" "t" fl accT) := by
  induction fl with
  | nil =>
    intro s vars accD accT h hD hT
    simp only [parseFlags, Option.some.injEq] at h
    subst h
    exact ⟨hD, hT⟩
  | cons x rest ih =>
    intro s vars accD accT h hD hT
    obtain ⟨r, v⟩ := x
    simp only [parseFlags] at h
    simp only [lastGiven]
    cases r with
    | long n =>
      by_cases h1 : n = "debug"
      · subst h1
        cases v with
        | bool b =>
          simp [tidyFlags, List.find?, Flag.isNamedBy, TidyVars.set] at h
          have := ih _ vars (some (.bool b)) accT h rfl hT
          simpa using this
        | duration d =>
          simp [tidyFlags, List.find?, Flag.isNamedBy, TidyVars.set] at h
      · by_cases h2 : n = "timeout"
        · subst h2
          cases v with
          | bool b =>
            simp [tidyFlags, List.find?, Flag.isNamedBy, TidyVars.set] at h
          | duration d =>
            simp [tidyFlags, List.find?, Flag.isNamedBy, TidyVars.set] at h
            have := ih _ vars accD (some (.duration d)) h hD rfl
            simpa using this
        · have h1b : ("debug" == n) = false := beq_eq_false_iff_ne.2 (fun h => h1 h.symm)
          have h2b : ("timeout" == n) = false := beq_eq_false_iff_ne.2 (fun h => h2 h.symm)
          simp [tidyFlags, List.find?, Flag.isNamedBy, h1b, h2b] at h
    | short n =>
      by_cases h1 : n = "d"
      · subst h1
        cases v with
        | bool b =>
          simp [tidyFlags, List.find?, Flag.isNamedBy, TidyVars.set] at h
          have := ih _ vars (some (.bool b)) accT h rfl hT
          simpa using this
        | duration d =>
          simp [tidyFlags, List.find?, Flag.isNamedBy, TidyVars.set] at h
      · by_cases h2 : n = "t"
        · subst h2
          cases v with
          | bool b =>
            simp [tidyFlags, List.find?, Flag.isNamedBy, TidyVars.set] at h
          | duration d =>
            simp [tidyFlags, List.find?, Flag.isNamedBy, TidyVars.set] at h
            have := ih _ vars accD (some (.duration d)) h hD rfl
            simpa using this
        · have h1b : ("d" == n) = false := beq_eq_false_iff_ne.2 (fun h => h1 h.symm)
          have h2b : ("t" == n) = false := beq_eq_false_iff_ne.2 (fun h => h2 h.symm)
          simp [tidyFlags, List.find?, Flag.isNamedBy, h1b, h2b] at h

/-- The variables of the tidy command after parsing, read off the command
line. -/
theorem parseFlags_tidy_given (cl : CommandLine) (vars : TidyVars)
    (h : parseFlags tidyFlags TidyVars.set cl.flags TidyVars.initial = some vars) :
    vars.debugMode = cl.boolGiven "debug" "d" ∧
    vars.perCommandTimeout = flagDuration (Second * 300) (cl.given "timeout" "t") := by
  have := parseFlags_tidy cl.flags TidyVars.initial vars none none h rfl rfl
  simpa [CommandLine.boolGiven, CommandLine.given, flagBool_false_eq] using this

/-- The shape of a run of the tidy command, read off the command line. -/
theorem CommandTidy_shape (log : Logger) (env : TidyEnv) (cl : CommandLine) :
    CommandTidy log env cl = ⟨[], Outcome.usage⟩ ∨
    ∃ pre ctx, (∀ e ∈ pre, e.isSetup = true) ∧
      ctx.perCommandTimeout = some (flagDuration (Second * 300) (cl.given "timeout" "t")) ∧
      ctx.isDebugMode = cl.boolGiven "debug" "d" ∧
      pre.filterMap Event.level =
        Level.info :: (if cl.boolGiven "debug" "d" then [Level.debug] else []) ∧
      (cl.args ≠ [] → ∀ e ∈ pre, e.isListConfigPaths = false) ∧
      (∀ dir paths, Event.listConfigPaths dir paths ∈ pre →
        dir = env.getwd.1 ∧ paths = env.listConfigPaths env.getwd.1) ∧
      (CommandTidy log env cl = ⟨pre, Outcome.exited⟩ ∨
        ∃ pm, CommandTidy log env cl =
          ⟨pre ++ (tidyLoop log env ctx pm (referenceConfigPaths env cl.args) pre []).trace,
            (tidyLoop log env ctx pm (referenceConfigPaths env cl.args) pre []).outcome⟩) := by
  unfold CommandTidy
  cases hp : parseFlags tidyFlags TidyVars.set cl.flags TidyVars.initial with
  | none => exact Or.inl rfl
  | some vars =>
    right
    obtain ⟨hd, ht⟩ := parseFlags_tidy_given cl vars hp
    obtain ⟨h1, h2, -, -⟩ := tidyContext_spec vars
    obtain ⟨pre, hpre, hlev, hlist, hdir, hrun⟩ := tidyRun_shape log env vars cl.args
    refine ⟨pre, (tidyContext vars).1, hpre, by rw [h1, ht], by rw [h2, hd], ?_, hlist, hdir, hrun⟩
    rw [hlev, hd]

theorem filterMap_setup {α : Type} (f : Event → Option α)
    (hf : ∀ e, e.isSetup = true → f e = none) (l : List Event)
    (hl : ∀ e ∈ l, e.isSetup = true) : l.filterMap f = [] := by
  rw [List.filterMap_eq_nil_iff]
  intro e he
  exact hf e (hl e he)

theorem tidyLoop_events (log : Logger) (env : TidyEnv) (ctx : Context) (pm : PluginManager)
    (ts : List String) (h : List Event) (m : List String) :
    ∀ e ∈ (tidyLoop log env ctx pm ts h m).trace,
      e.isListConfigPaths = false ∧ e.level = none ∧ ∀ c, e.tidyContext = some c → c = ctx := by
  refine tidyLoop_forall _ log env ctx pm ?_ ?_ ts h m
  · intro h path m e he
    exact (tidyPath_events log env ctx pm h path m).2.2 e he
  · intro m e he
    have := tidyReport_events env m e he
    exact ⟨this.2.2.2.1, this.2.2.2.2.1, by simp [this.2.2.2.2.2.1]⟩

theorem tidyResolve_none (log : Logger) (env : TidyEnv) (args : List String)
    (h : (tidyResolve log env args).2 = none) :
    ∃ e ∈ (tidyResolve log env args).1, e.isFatal = true := by
  unfold tidyResolve at h ⊢
  by_cases ha : args.length ≠ 0
  · simp [ha] at h
  · simp only [ha, if_false] at h ⊢
    rcases hg : env.getwd with ⟨dir, _ | err⟩
    · simp [hg] at h
    · cases hf : log.fatalReturns
      · simp [Event.isFatal]
      · simp [hg, hf] at h

theorem tidyPluginManager_none (log : Logger) (env : TidyEnv)
    (h : (tidyPluginManager log env).2 = none) :
    ∃ e ∈ (tidyPluginManager log env).1, e.isFatal = true := by
  unfold tidyPluginManager at h ⊢
  rcases hg : env.newPluginManager with ⟨pm, _ | err⟩
  · simp [hg] at h
  · cases hf : log.fatalReturns
    · simp [Event.isFatal]
    · simp [hg, hf] at h

/-- A run of `Run` of the tidy command in which `LogFatal` is not called
returns. -/
theorem tidyRun_noFatal_returned (log : Logger) (env : TidyEnv) (vars : TidyVars)
    (args : List String) :
    (∀ e ∈ (tidyRun log env vars args).trace, e.isFatal = false) →
      (tidyRun log env vars args).outcome = Outcome.returned := by
  have hres := tidyResolve_none log env args
  have hpm := tidyPluginManager_none log env
  unfold tidyRun
  rcases tidyContext vars with ⟨ctx, t1⟩
  rcases hr : tidyResolve log env args with ⟨t2, _ | ts⟩
  · rw [hr] at hres
    obtain ⟨e, he, hf⟩ := hres rfl
    intro hnf
    have := hnf e (List.mem_append_right _ he)
    rw [hf] at this
    cases this
  · rcases hp : tidyPluginManager log env with ⟨t3, _ | pm⟩
    · rw [hp] at hpm
      obtain ⟨e, he, hf⟩ := hpm rfl
      intro hnf
      have := hnf e (List.mem_append_right _ he)
      rw [hf] at this
      cases this
    · intro hnf
      obtain ⟨body, m1, -, hout, -⟩ :=
        tidyLoop_noFatal log env ctx pm ts (t1 ++ t2 ++ t3) []
          (fun e he => hnf e (List.mem_append_right _ he)) List.nodup_nil
      exact hout

/-- A command line that writes registered flags only, each with a value of its
type, is parsed. -/
theorem parseFlags_tidy_written (fl : List (FlagRef × FlagValue)) :
    (∀ rv ∈ fl, tidyFlagWritten rv = true) →
      ∀ s, ∃ vars, parseFlags tidyFlags TidyVars.set fl s = some vars := by
  induction fl with
  | nil =>
    intro _ s
    exact ⟨s, rfl⟩
  | cons x rest ih =>
    intro hw s
    have hx := hw x (List.mem_cons_self _ _)
    have hrest := ih (fun rv hrv => hw rv (List.mem_cons_of_mem _ hrv))
    obtain ⟨r, v⟩ := x
    cases v with
    | bool b =>
      simp only [tidyFlagWritten, Bool.or_eq_true, beq_iff_eq] at hx
      rcases hx with rfl | rfl
      · obtain ⟨vars, hv⟩ := hrest { s with debugMode := b }
        refine ⟨vars, ?_⟩
        simp [parseFlags, tidyFlags, List.find?, Flag.isNamedBy, TidyVars.set]
        simpa [tidyFlags] using hv
      · obtain ⟨vars, hv⟩ := hrest { s with debugMode := b }
        refine ⟨vars, ?_⟩
        simp [parseFlags, tidyFlags, List.find?, Flag.isNamedBy, TidyVars.set]
        simpa [tidyFlags] using hv
    | duration d =>
      simp only [tidyFlagWritten, Bool.or_eq_true, beq_iff_eq] at hx
      rcases hx with rfl | rfl
      · obtain ⟨vars, hv⟩ := hrest { s with perCommandTimeout := d }
        refine ⟨vars, ?_⟩
        simp [parseFlags, tidyFlags, List.find?, Flag.isNamedBy, TidyVars.set]
        simpa [tidyFlags] using hv
      · obtain ⟨vars, hv⟩ := hrest { s with perCommandTimeout := d }
        refine ⟨vars, ?_⟩
        simp [parseFlags, tidyFlags, List.find?, Flag.isNamedBy, TidyVars.set]
        simpa [tidyFlags] using hv

/-- The tidy command calls `Run` on a command line that writes registered
flags only, each with a value of its type. -/
theorem CommandTidy_accepts (log : Logger) (env : TidyEnv) (cl : CommandLine)
    (hw : ∀ rv ∈ cl.flags, tidyFlagWritten rv = true) :
    ∃ vars, CommandTidy log env cl = tidyRun log env vars cl.args ∧
      (CommandTidy log env cl).outcome ≠ Outcome.usage := by
  obtain ⟨vars, hv⟩ := parseFlags_tidy_written cl.flags hw TidyVars.initial
  have hc : CommandTidy log env cl = tidyRun log env vars cl.args := by
    simp [CommandTidy, hv]
  refine ⟨vars, hc, ?_⟩
  rw [hc]
  unfold tidyRun
  rcases tidyContext vars with ⟨c, t1⟩
  rcases tidyResolve log env cl.args with ⟨t2, _ | ts⟩
  · simp
  · rcases tidyPluginManager log env with ⟨t3, _ | pm⟩
    · simp
    · exact (tidyLoop_checked log env c pm ts (t1 ++ t2 ++ t3) []).2.2

theorem length_tidyContext (l : List Event) :
    (l.filterMap Event.tidyContext).length = (l.filterMap Event.tidiedPath).length := by
  induction l with
  | nil => rfl
  | cons e l ih =>
    cases e <;> simp [List.filterMap_cons, Event.tidyContext, Event.tidiedPath, ih]

/-- A run of the tidy command on an accepted command line in which `LogFatal`
is not called: it returns, every path of the reference list is handed to
`IsFileExists`, in order, and `tidy` is invoked on the occurrences reported as
existing. -/
theorem CommandTidy_noFatal (log : Logger) (env : TidyEnv) (cl : CommandLine)
    (hw : ∀ rv ∈ cl.flags, tidyFlagWritten rv = true)
    (hnf : ∀ e ∈ (CommandTidy log env cl).trace, e.isFatal = false) :
    (CommandTidy log env cl).outcome = Outcome.returned ∧
    ((CommandTidy log env cl).trace.filterMap Event.check).map Prod.fst =
      referenceConfigPaths env cl.args ∧
    (CommandTidy log env cl).trace.filterMap Event.tidiedPath =
      (((CommandTidy log env cl).trace.filterMap Event.check).filter (fun c => c.2)).map
        Prod.fst := by
  obtain ⟨vars, hc, -⟩ := CommandTidy_accepts log env cl hw
  have hout : (CommandTidy log env cl).outcome = Outcome.returned := by
    rw [hc] at hnf ⊢
    exact tidyRun_noFatal_returned log env vars cl.args hnf
  refine ⟨hout, ?_⟩
  rcases CommandTidy_shape log env cl with h | ⟨pre, ctx, hpre, -, -, -, -, -, h | ⟨pm, h⟩⟩
  · rw [h] at hout; cases hout
  · rw [h] at hout; cases hout
  · rw [h] at hnf ⊢
    simp only at hnf ⊢
    obtain ⟨body, m1, htr, -, hchk, htid, -⟩ :=
      tidyLoop_noFatal log env ctx pm (referenceConfigPaths env cl.args) pre []
        (fun e he => hnf e (List.mem_append_right _ he)) List.nodup_nil
    rw [htr]
    have hpc := filterMap_setup Event.check (fun e he => (Event.isSetup_props he).1) pre hpre
    have hpt := filterMap_setup Event.tidiedPath
      (fun e he => (Event.isSetup_props he).2.1) pre hpre
    have hrc : (tidyReport env m1).trace.filterMap Event.check = [] :=
      List.filterMap_eq_nil_iff.2 (fun e he => (tidyReport_events env m1 e he).1)
    have hrt : (tidyReport env m1).trace.filterMap Event.tidiedPath = [] :=
      List.filterMap_eq_nil_iff.2 (fun e he => (tidyReport_events env m1 e he).2.1)
    have hC : (pre ++ (body ++ (tidyReport env m1).trace)).filterMap Event.check =
        body.filterMap Event.check := by
      simp only [List.filterMap_append, hpc, hrc, List.nil_append, List.append_nil]
    have hT : (pre ++ (body ++ (tidyReport env m1).trace)).filterMap Event.tidiedPath =
        body.filterMap Event.tidiedPath := by
      simp only [List.filterMap_append, hpt, hrt, List.nil_append, List.append_nil]
    rw [hC, hT]
    exact ⟨hchk, htid⟩

/-! ## Properties of the tidy command -/

/-- C6: the function `tidy` runs its steps in the order `StepTidyConfigFile`,
`LoadConfigItems`, `StepInstallProtoc`, `StepInstallRepositories`,
`StepInstallPlugins`, on the context, plugin manager and path it was given; the
items given to the install steps are the ones `LoadConfigItems` returned for
the path after `StepTidyConfigFile` had returned without error; it returns the
error of the first step that fails, which is the last call it makes, and nil
if and only if the five steps ran and none failed. -/
theorem tidy_steps_in_order (env : TidyEnv) (h : List Event) (ctx : Context)
    (pm : PluginManager) (path : String) :
    ((tidy env h ctx pm path).1.filterMap Event.stepIndex <+: [0, 1, 2, 3, 4]) ∧
    ((tidy env h ctx pm path).2 = none ↔
      (tidy env h ctx pm path).1.filterMap Event.stepIndex = [0, 1, 2, 3, 4] ∧
      ∀ e ∈ (tidy env h ctx pm path).1, e.stepErr = none) ∧
    (∀ err, (tidy env h ctx pm path).2 = some err →
      ∃ pre e, (tidy env h ctx pm path).1 = pre ++ [e] ∧ e.stepIndex ≠ none ∧
        e.stepErr = some err ∧ ∀ x ∈ pre, x.stepErr = none) ∧
    (∀ e ∈ (tidy env h ctx pm path).1, ∀ c p items, e.installArgs = some (c, p, items) →
      c = ctx ∧ p = pm ∧
      ∃ pre post, (tidy env h ctx pm path).1 = pre ++ post ∧ e ∈ post ∧
        Event.stepTidyConfigFile ctx pm path none ∈ pre ∧
        env.loadConfigItems (h ++ pre) path = (items, none)) ∧
    (∀ c p q r, Event.stepTidyConfigFile c p q r ∈ (tidy env h ctx pm path).1 →
      c = ctx ∧ p = pm ∧ q = path) ∧
    (∀ q items r, Event.loadConfigItems q items r ∈ (tidy env h ctx pm path).1 → q = path) := by
  have hmem1 : Event.stepTidyConfigFile ctx pm path none ∈ tidyTrace1 ctx pm path := by
    simp [tidyTrace1]
  rcases tidy_cases env h ctx pm path with ⟨err, ht⟩ | ⟨items, err, ht⟩ |
    ⟨items, hload, ⟨err, ht⟩ | ⟨err, ht⟩ | ⟨err, ht⟩ | ht⟩
  · rw [ht]
    refine ⟨⟨[1, 2, 3, 4], by simp [tidyTrace0, Event.stepIndex]⟩, ?_, ?_, ?_, ?_, ?_⟩
    · simp [tidyTrace0, Event.stepIndex, Event.stepErr]
    · intro e he
      refine ⟨_, _, rfl, ?_⟩
      simp [tidyTrace0, Event.stepIndex, Event.stepErr] at he ⊢
      exact he
    · simp [tidyTrace0, Event.installArgs]
    · intro c p q r hm
      simp [tidyTrace0] at hm
      tauto
    · intro q its r hm
      simp [tidyTrace0] at hm
  · rw [ht]
    refine ⟨⟨[2, 3, 4], by simp [tidyTrace0, tidyTrace1, Event.stepIndex]⟩, ?_, ?_, ?_, ?_, ?_⟩
    · simp [tidyTrace0, tidyTrace1, Event.stepIndex, Event.stepErr]
    · intro e he
      refine ⟨_, _, rfl, ?_⟩
      simp [tidyTrace0, tidyTrace1, Event.stepIndex, Event.stepErr] at he ⊢
      exact he
    · simp [tidyTrace0, tidyTrace1, Event.installArgs]
    · intro c p q r hm
      simp [tidyTrace0, tidyTrace1] at hm
      tauto
    · intro q its r hm
      simp [tidyTrace0, tidyTrace1] at hm
      tauto
  · rw [ht]
    refine ⟨⟨[3, 4], by simp [tidyTrace0, tidyTrace1, tidyTrace2, Event.stepIndex]⟩, ?_, ?_, ?_, ?_, ?_⟩
    · simp [tidyTrace0, tidyTrace1, tidyTrace2, Event.stepIndex, Event.stepErr]
    · intro e he
      refine ⟨_, _, rfl, ?_⟩
      simp [tidyTrace0, tidyTrace1, tidyTrace2, Event.stepIndex, Event.stepErr] at he ⊢
      exact he
    · intro e he c p its hargs
      have : c = ctx ∧ p = pm ∧ its = items ∧
          e ∈ [Event.loadConfigItems path items none,
            Event.stepInstallProtoc ctx pm items (some err)] := by
        simp only [tidyTrace0, tidyTrace1, tidyTrace2, List.mem_append, List.mem_cons,
          List.not_mem_nil, or_false] at he
        rcases he with ((((rfl | rfl) | rfl | rfl | rfl) | rfl) | rfl) <;>
          simp_all [Event.installArgs]
      obtain ⟨rfl, rfl, rfl, hpost⟩ := this
      exact ⟨rfl, rfl, tidyTrace1 c p path, _, by simp [tidyTrace2], hpost, hmem1, hload⟩
    · intro c p q r hm
      simp [tidyTrace0, tidyTrace1, tidyTrace2] at hm
      tauto
    · intro q its r hm
      simp [tidyTrace0, tidyTrace1, tidyTrace2] at hm
      tauto
  · rw [ht]
    refine ⟨⟨[4], by simp [tidyTrace0, tidyTrace1, tidyTrace2, tidyTrace3, Event.stepIndex]⟩, ?_, ?_, ?_, ?_, ?_⟩
    · simp [tidyTrace0, tidyTrace1, tidyTrace2, tidyTrace3, Event.stepIndex, Event.stepErr]
    · intro e he
      refine ⟨_, _, rfl, ?_⟩
      simp [tidyTrace0, tidyTrace1, tidyTrace2, tidyTrace3, Event.stepIndex, Event.stepErr] at he ⊢
      exact he
    · intro e he c p its hargs
      have : c = ctx ∧ p = pm ∧ its = items ∧
          e ∈ [Event.loadConfigItems path items none, Event.stepInstallProtoc ctx pm items none,
            Event.stepInstallRepositories ctx pm items (some err)] := by
        simp only [tidyTrace0, tidyTrace1, tidyTrace2, tidyTrace3, List.mem_append, List.mem_cons,
          List.not_mem_nil, or_false] at he
        rcases he with (((((rfl | rfl) | rfl | rfl | rfl) | rfl) | rfl) | rfl) <;>
          simp_all [Event.installArgs]
      obtain ⟨rfl, rfl, rfl, hpost⟩ := this
      exact ⟨rfl, rfl, tidyTrace1 c p path, _, by simp [tidyTrace2, tidyTrace3], hpost, hmem1,
        hload⟩
    · intro c p q r hm
      simp [tidyTrace0, tidyTrace1, tidyTrace2, tidyTrace3] at hm
      tauto
    · intro q its r hm
      simp [tidyTrace0, tidyTrace1, tidyTrace2, tidyTrace3] at hm
      tauto
  · rw [ht]
    refine ⟨⟨[], by simp [tidyTrace0, tidyTrace1, tidyTrace2, tidyTrace3, tidyTrace4, Event.stepIndex]⟩, ?_, ?_, ?_, ?_, ?_⟩
    · simp [tidyTrace0, tidyTrace1, tidyTrace2, tidyTrace3, tidyTrace4, Event.stepIndex, Event.stepErr]
    · intro e he
      refine ⟨_, _, rfl, ?_⟩
      simp [tidyTrace0, tidyTrace1, tidyTrace2, tidyTrace3, tidyTrace4, Event.stepIndex,
        Event.stepErr] at he ⊢
      exact he
    · intro e he c p its hargs
      have : c = ctx ∧ p = pm ∧ its = items ∧
          e ∈ [Event.loadConfigItems path items none, Event.stepInstallProtoc ctx pm items none,
            Event.stepInstallRepositories ctx pm items none,
            Event.stepInstallPlugins ctx pm items (some err)] := by
        simp only [tidyTrace0, tidyTrace1, tidyTrace2, tidyTrace3, tidyTrace4, List.mem_append,
          List.mem_cons, List.not_mem_nil, or_false] at he
        rcases he with ((((((rfl | rfl) | rfl | rfl | rfl) | rfl) | rfl) | rfl) | rfl) <;>
          simp_all [Event.installArgs]
      obtain ⟨rfl, rfl, rfl, hpost⟩ := this
      exact ⟨rfl, rfl, tidyTrace1 c p path, _, by simp [tidyTrace2, tidyTrace3, tidyTrace4],
        hpost, hmem1, hload⟩
    · intro c p q r hm
      simp [tidyTrace0, tidyTrace1, tidyTrace2, tidyTrace3, tidyTrace4] at hm
      tauto
    · intro q its r hm
      simp [tidyTrace0, tidyTrace1, tidyTrace2, tidyTrace3, tidyTrace4] at hm
      tauto
  · rw [ht]
    refine ⟨⟨[], by simp [tidyTrace0, tidyTrace1, tidyTrace2, tidyTrace3, tidyTrace4, Event.stepIndex]⟩, ?_, ?_, ?_, ?_, ?_⟩
    · simp [tidyTrace0, tidyTrace1, tidyTrace2, tidyTrace3, tidyTrace4, Event.stepIndex,
        Event.stepErr]
    · intro e he
      simp at he
    · intro e he c p its hargs
      have : c = ctx ∧ p = pm ∧ its = items ∧
          e ∈ [Event.loadConfigItems path items none, Event.stepInstallProtoc ctx pm items none,
            Event.stepInstallRepositories ctx pm items none,
            Event.stepInstallPlugins ctx pm items none] := by
        simp only [tidyTrace0, tidyTrace1, tidyTrace2, tidyTrace3, tidyTrace4, List.mem_append,
          List.mem_cons, List.not_mem_nil, or_false] at he
        rcases he with ((((((rfl | rfl) | rfl | rfl | rfl) | rfl) | rfl) | rfl) | rfl) <;>
          simp_all [Event.installArgs]
      obtain ⟨rfl, rfl, rfl, hpost⟩ := this
      exact ⟨rfl, rfl, tidyTrace1 c p path, _, by simp [tidyTrace2, tidyTrace3, tidyTrace4],
        hpost, hmem1, hload⟩
    · intro c p q r hm
      simp [tidyTrace0, tidyTrace1, tidyTrace2, tidyTrace3, tidyTrace4] at hm
      tauto
    · intro q its r hm
      simp [tidyTrace0, tidyTrace1, tidyTrace2, tidyTrace3, tidyTrace4] at hm
      tauto

/-- The config paths the tidy command hands to `IsFileExists` are the first
paths of the reference list, and all of them when the run returns;
`ListConfigPaths` is called on the working directory, and not at all when
there are arguments. -/
theorem tidy_config_paths_core (log : Logger) (env : TidyEnv) (cl : CommandLine) :
    (((CommandTidy log env cl).trace.filterMap Event.check).map Prod.fst <+:
      referenceConfigPaths env cl.args) ∧
    ((CommandTidy log env cl).outcome = Outcome.returned →
      ((CommandTidy log env cl).trace.filterMap Event.check).map Prod.fst =
        referenceConfigPaths env cl.args) ∧
    (cl.args = [] → referenceConfigPaths env cl.args = env.listConfigPaths env.getwd.1) ∧
    (cl.args ≠ [] →
      referenceConfigPaths env cl.args = cl.args.map (fun arg => (env.abs arg).1) ∧
      ∀ e ∈ (CommandTidy log env cl).trace, e.isListConfigPaths = false) ∧
    (∀ dir paths, Event.listConfigPaths dir paths ∈ (CommandTidy log env cl).trace →
      dir = env.getwd.1 ∧ paths = env.listConfigPaths env.getwd.1) := by
  have hsetup : ∀ pre : List Event, (∀ e ∈ pre, e.isSetup = true) →
      pre.filterMap Event.check = [] := fun pre hpre =>
    filterMap_setup Event.check (fun e he => (Event.isSetup_props he).1) pre hpre
  refine ⟨?_, ?_, fun ha => by simp [referenceConfigPaths, ha], ?_, ?_⟩
  · rcases CommandTidy_shape log env cl with h | ⟨pre, ctx, hpre, -, -, -, -, -, h | ⟨pm, h⟩⟩
    · rw [h]; exact List.nil_prefix
    · rw [h]; simp only [hsetup pre hpre, List.map_nil]; exact List.nil_prefix
    · rw [h]
      simp only [List.filterMap_append, hsetup pre hpre, List.nil_append]
      exact (tidyLoop_checked log env ctx pm _ pre []).1
  · intro hout
    rcases CommandTidy_shape log env cl with h | ⟨pre, ctx, hpre, -, -, -, -, -, h | ⟨pm, h⟩⟩
    · rw [h] at hout; cases hout
    · rw [h] at hout; cases hout
    · rw [h] at hout ⊢
      simp only [List.filterMap_append, hsetup pre hpre, List.nil_append]
      exact (tidyLoop_checked log env ctx pm _ pre []).2.1 hout
  · intro ha
    refine ⟨by simp [referenceConfigPaths, ha], ?_⟩
    rcases CommandTidy_shape log env cl with h | ⟨pre, ctx, hpre, -, -, -, hl, -, h | ⟨pm, h⟩⟩
    · rw [h]; simp
    · rw [h]; exact hl ha
    · rw [h]
      intro e he
      rcases List.mem_append.1 he with he | he
      · exact hl ha e he
      · exact (tidyLoop_events log env ctx pm _ pre [] e he).1
  · intro dir paths hm
    rcases CommandTidy_shape log env cl with h | ⟨pre, ctx, hpre, -, -, -, -, hd, h | ⟨pm, h⟩⟩
    · rw [h] at hm; simp at hm
    · rw [h] at hm; exact hd dir paths hm
    · rw [h] at hm
      rcases List.mem_append.1 hm with hm | hm
      · exact hd dir paths hm
      · have := (tidyLoop_events log env ctx pm _ pre [] _ hm).1
        simp [Event.isListConfigPaths] at this

/-- The context of every invocation of `tidy` carries the timeout and the
debug marker the flags give, and the log level is set to Info and then, when
the flag `debug` is given, to Debug. -/
theorem tidy_context_timeout_debug_core (log : Logger) (env : TidyEnv) (cl : CommandLine) :
    (∀ e ∈ (CommandTidy log env cl).trace, ∀ c, e.tidyContext = some c →
      c.perCommandTimeout = some (flagDuration (Second * 300) (cl.given "timeout" "t")) ∧
      (c.isDebugMode = true ↔ cl.boolGiven "debug" "d" = true)) ∧
    (cl.given "timeout" "t" = none →
      flagDuration (Second * 300) (cl.given "timeout" "t") = 300000000000) ∧
    ((CommandTidy log env cl).outcome ≠ Outcome.usage →
      (CommandTidy log env cl).trace.filterMap Event.level =
        Level.info :: (if cl.boolGiven "debug" "d" then [Level.debug] else []) ∧
      ((CommandTidy log env cl).trace.filterMap Event.level).getLast? =
        some (if cl.boolGiven "debug" "d" then Level.debug else Level.info)) := by
  refine ⟨?_, ?_, ?_⟩
  · intro e he c hc
    rcases CommandTidy_shape log env cl with h | ⟨pre, ctx, hpre, ht, hd, -, -, -, h | ⟨pm, h⟩⟩
    · rw [h] at he; simp at he
    · rw [h] at he
      have := (Event.isSetup_props (hpre e he)).2.2.2.1
      rw [hc] at this
      cases this
    · rw [h] at he
      rcases List.mem_append.1 he with he | he
      · have := (Event.isSetup_props (hpre e he)).2.2.2.1
        rw [hc] at this
        cases this
      · have := (tidyLoop_events log env ctx pm _ pre [] e he).2.2 c hc
        subst this
        exact ⟨ht, by rw [hd]⟩
  · intro hg
    rw [hg]
    rfl
  · intro hout
    have key : (CommandTidy log env cl).trace.filterMap Event.level =
        Level.info :: (if cl.boolGiven "debug" "d" then [Level.debug] else []) := by
      rcases CommandTidy_shape log env cl with h | ⟨pre, ctx, hpre, -, -, hl, -, -, h | ⟨pm, h⟩⟩
      · rw [h] at hout; exact absurd rfl hout
      · rw [h]; exact hl
      · rw [h]
        simp only [List.filterMap_append, hl]
        rw [List.filterMap_eq_nil_iff.2
          (fun e he => (tidyLoop_events log env ctx pm _ pre [] e he).2.1), List.append_nil]
    refine ⟨key, ?_⟩
    rw [key]
    cases cl.boolGiven "debug" "d" <;> rfl

/-- C10: on a run of the tidy command that returns and in which `LogFatal` is
not called, every path of the list is handed to `IsFileExists`, in order;
`tidy` is invoked, in list order, once for every occurrence of a path reported
as existing and for no other path; the paths logged under "these following
config files were tidied:" are the distinct existing paths, each once, and
every one of them is a path on which `tidy` returned no error. -/
theorem tidy_tidies_existing_paths (log : Logger) (env : TidyEnv) (cl : CommandLine)
    (hperm : ∀ l, (env.mapOrder l).Perm l)
    (hfatal : ∀ e ∈ (CommandTidy log env cl).trace, e.isFatal = false)
    (hrun : (CommandTidy log env cl).outcome = Outcome.returned) :
    ((CommandTidy log env cl).trace.filterMap Event.check).map Prod.fst =
      referenceConfigPaths env cl.args ∧
    (CommandTidy log env cl).trace.filterMap Event.tidiedPath =
      (((CommandTidy log env cl).trace.filterMap Event.check).filter (fun c => c.2)).map
        Prod.fst ∧
    ((CommandTidy log env cl).trace.filterMap Event.loggedPath).Nodup ∧
    (∀ p, p ∈ (CommandTidy log env cl).trace.filterMap Event.loggedPath ↔
      (p, true) ∈ (CommandTidy log env cl).trace.filterMap Event.check) ∧
    (∀ p ∈ (CommandTidy log env cl).trace.filterMap Event.loggedPath,
      Event.tidyReturn p none ∈ (CommandTidy log env cl).trace) ∧
    (∀ p err, Event.tidyReturn p (some err) ∉ (CommandTidy log env cl).trace) ∧
    ∃ pre, pre.filterMap Event.loggedPath = [] ∧
      (CommandTidy log env cl).trace =
        pre ++ [Event.logInfo "these following config files were tidied:" []] ++
          ((CommandTidy log env cl).trace.filterMap Event.loggedPath).map
            (fun path => Event.logInfo "\t%s" [path]) ++
          [Event.logInfo "\r\nsucceeded, you are ready to go :)" []] := by
  rcases CommandTidy_shape log env cl with h | ⟨pre, ctx, hpre, -, -, -, -, -, h | ⟨pm, h⟩⟩
  · rw [h] at hrun; cases hrun
  · rw [h] at hrun; cases hrun
  · rw [h] at hfatal hrun ⊢
    simp only at hfatal hrun ⊢
    obtain ⟨body, m1, htr, -, hchk, htid, hlog, hnd, hmem, hok, hbad⟩ :=
      tidyLoop_noFatal log env ctx pm (referenceConfigPaths env cl.args) pre []
        (fun e he => hfatal e (List.mem_append_right _ he)) List.nodup_nil
    rw [htr]
    have hpc := filterMap_setup Event.check (fun e he => (Event.isSetup_props he).1) pre hpre
    have hpt := filterMap_setup Event.tidiedPath
      (fun e he => (Event.isSetup_props he).2.1) pre hpre
    have hpl := filterMap_setup Event.loggedPath
      (fun e he => (Event.isSetup_props he).2.2.1) pre hpre
    have hrc : (tidyReport env m1).trace.filterMap Event.check = [] :=
      List.filterMap_eq_nil_iff.2 (fun e he => (tidyReport_events env m1 e he).1)
    have hrt : (tidyReport env m1).trace.filterMap Event.tidiedPath = [] :=
      List.filterMap_eq_nil_iff.2 (fun e he => (tidyReport_events env m1 e he).2.1)
    have hrl := tidyReport_loggedPath env m1
    have hC : (pre ++ (body ++ (tidyReport env m1).trace)).filterMap Event.check =
        body.filterMap Event.check := by
      simp only [List.filterMap_append, hpc, hrc, List.nil_append, List.append_nil]
    have hT : (pre ++ (body ++ (tidyReport env m1).trace)).filterMap Event.tidiedPath =
        body.filterMap Event.tidiedPath := by
      simp only [List.filterMap_append, hpt, hrt, List.nil_append, List.append_nil]
    have hL : (pre ++ (body ++ (tidyReport env m1).trace)).filterMap Event.loggedPath =
        env.mapOrder m1 := by
      simp only [List.filterMap_append, hpl, hlog, hrl, List.nil_append]
    rw [hC, hT, hL]
    refine ⟨hchk, htid, (hperm m1).nodup_iff.2 hnd, ?_, ?_, ?_, ?_⟩
    · intro p
      rw [(hperm m1).mem_iff, hmem p]
      simp
    · intro p hp
      rw [(hperm m1).mem_iff] at hp
      rcases hok p hp with h1 | h1
      · simp at h1
      · exact List.mem_append_right _ (List.mem_append_left _ h1)
    · intro p err hm
      rcases List.mem_append.1 hm with h1 | h1
      · exact (Event.isSetup_props (hpre _ h1)).2.2.2.2 p (some err) rfl
      · rcases List.mem_append.1 h1 with h2 | h2
        · exact hbad p err h2
        · exact (tidyReport_events env m1 _ h2).2.2.2.2.2.2 p (some err) rfl
    · refine ⟨pre ++ body, by simp [List.filterMap_append, hpl, hlog], ?_⟩
      simp [tidyReport]

/-- The run of the tidy command on `/w/a.yaml /w/b.yaml /w/a.yaml`, of which
only `/w/a.yaml` exists: it returns without a call of `LogFatal`, so `tidy` is
invoked on the occurrences of the existing paths, here twice on `/w/a.yaml`,
which is logged once. -/
theorem tidy_tidies_existing_paths_witness :
    (CommandTidy ⟨true⟩ sampleTidyEnv sampleTidyLine).trace.filterMap Event.tidiedPath =
      ["/w/a.yaml", "/w/a.yaml"] ∧
    (CommandTidy ⟨true⟩ sampleTidyEnv sampleTidyLine).trace.filterMap Event.loggedPath =
      ["/w/a.yaml"] ∧
    (CommandTidy ⟨true⟩ sampleTidyEnv sampleTidyLine).trace.filterMap Event.tidiedPath =
      (((CommandTidy ⟨true⟩ sampleTidyEnv sampleTidyLine).trace.filterMap Event.check).filter
        (fun c => c.2)).map Prod.fst :=
  ⟨by decide, by decide,
    (tidy_tidies_existing_paths ⟨true⟩ sampleTidyEnv sampleTidyLine
      (fun l => List.reverse_perm l) (by decide) (by decide)).2.1⟩

/-- C5: the config paths the tidy command processes (hands to `IsFileExists`,
in order, until the run ends) are the reference list: with no argument
`configs.ListConfigPaths` of the directory `os.Getwd` returned, with arguments
their absolute paths in the order given, and then `ListConfigPaths` is not
called.  The list is processed whole when the run returns, and the run
returns, on every command line that writes registered flags only, when
`LogFatal` is not called. -/
theorem tidy_config_paths (log : Logger) (env : TidyEnv) (cl : CommandLine) :
    (((CommandTidy log env cl).trace.filterMap Event.check).map Prod.fst <+:
      referenceConfigPaths env cl.args) ∧
    ((CommandTidy log env cl).outcome = Outcome.returned →
      ((CommandTidy log env cl).trace.filterMap Event.check).map Prod.fst =
        referenceConfigPaths env cl.args) ∧
    (cl.args = [] → referenceConfigPaths env cl.args = env.listConfigPaths env.getwd.1) ∧
    (cl.args ≠ [] →
      referenceConfigPaths env cl.args = cl.args.map (fun arg => (env.abs arg).1) ∧
      ∀ e ∈ (CommandTidy log env cl).trace, e.isListConfigPaths = false) ∧
    (∀ dir paths, Event.listConfigPaths dir paths ∈ (CommandTidy log env cl).trace →
      dir = env.getwd.1 ∧ paths = env.listConfigPaths env.getwd.1) ∧
    ((∀ rv ∈ cl.flags, tidyFlagWritten rv = true) →
      (∀ e ∈ (CommandTidy log env cl).trace, e.isFatal = false) →
      (CommandTidy log env cl).outcome = Outcome.returned ∧
      ((CommandTidy log env cl).trace.filterMap Event.check).map Prod.fst =
        referenceConfigPaths env cl.args) := by
  obtain ⟨h1, h2, h3, h4, h5⟩ := tidy_config_paths_core log env cl
  refine ⟨h1, h2, h3, h4, h5, ?_⟩
  intro hw hnf
  obtain ⟨p1, p2, -⟩ := CommandTidy_noFatal log env cl hw hnf
  exact ⟨p1, p2⟩

/-- Two runs of the tidy command: on three arguments, which are handed to
`IsFileExists` in the order given, and on no argument in `/w/p`, where the
paths `ListConfigPaths` returns for `/w/p` are handed to it. -/
theorem tidy_config_paths_witness :
    ((CommandTidy ⟨false⟩ sampleTidyEnv sampleTidyLine).trace.filterMap Event.check).map
        Prod.fst = ["/w/a.yaml", "/w/b.yaml", "/w/a.yaml"] ∧
    ((CommandTidy ⟨false⟩ ancestorsTidyEnv ⟨[], []⟩).trace.filterMap Event.check).map
        Prod.fst = ["/w/p/powerproto.yaml", "/w/powerproto.yaml"] ∧
    Event.listConfigPaths "/w/p" ["/w/p/powerproto.yaml", "/w/powerproto.yaml"] ∈
      (CommandTidy ⟨false⟩ ancestorsTidyEnv ⟨[], []⟩).trace ∧
    ((CommandTidy ⟨false⟩ ancestorsTidyEnv ⟨[], []⟩).outcome = Outcome.returned ∧
      ((CommandTidy ⟨false⟩ ancestorsTidyEnv ⟨[], []⟩).trace.filterMap Event.check).map
        Prod.fst = referenceConfigPaths ancestorsTidyEnv []) :=
  ⟨by decide, by decide, by decide,
    (tidy_config_paths ⟨false⟩ ancestorsTidyEnv ⟨[], []⟩).2.2.2.2.2 (by decide) (by decide)⟩

/-- C7: in every run of the tidy command the context passed to `tidy` carries
the per-command timeout the flag `timeout` (`-t`) gives, 300 seconds when the
flag is not given, and the debug-mode marker if and only if the flag `debug`
(`-d`) is given; the log level is set to Info and then, if and only if the
flag `debug` is given, to Debug.  A command line that writes registered flags
only is accepted, and when `LogFatal` is not called `tidy` is then invoked once
for every path of the reference list that is reported as existing. -/
theorem tidy_context_timeout_debug (log : Logger) (env : TidyEnv) (cl : CommandLine) :
    (∀ e ∈ (CommandTidy log env cl).trace, ∀ c, e.tidyContext = some c →
      c.perCommandTimeout = some (flagDuration (Second * 300) (cl.given "timeout" "t")) ∧
      (c.isDebugMode = true ↔ cl.boolGiven "debug" "d" = true)) ∧
    (cl.given "timeout" "t" = none →
      flagDuration (Second * 300) (cl.given "timeout" "t") = 300000000000) ∧
    ((CommandTidy log env cl).outcome ≠ Outcome.usage →
      (CommandTidy log env cl).trace.filterMap Event.level =
        Level.info :: (if cl.boolGiven "debug" "d" then [Level.debug] else []) ∧
      ((CommandTidy log env cl).trace.filterMap Event.level).getLast? =
        some (if cl.boolGiven "debug" "d" then Level.debug else Level.info)) ∧
    ((∀ rv ∈ cl.flags, tidyFlagWritten rv = true) →
      (CommandTidy log env cl).outcome ≠ Outcome.usage ∧
      ((∀ e ∈ (CommandTidy log env cl).trace, e.isFatal = false) →
        ((CommandTidy log env cl).trace.filterMap Event.check).map Prod.fst =
          referenceConfigPaths env cl.args ∧
        ((CommandTidy log env cl).trace.filterMap Event.tidyContext).length =
          (((CommandTidy log env cl).trace.filterMap Event.check).filter
            (fun c => c.2)).length)) := by
  obtain ⟨h1, h2, h3⟩ := tidy_context_timeout_debug_core log env cl
  refine ⟨h1, h2, h3, ?_⟩
  intro hw
  obtain ⟨vars, -, hacc⟩ := CommandTidy_accepts log env cl hw
  refine ⟨hacc, ?_⟩
  intro hnf
  obtain ⟨-, p2, p3⟩ := CommandTidy_noFatal log env cl hw hnf
  refine ⟨p2, ?_⟩
  rw [length_tidyContext, p3, List.length_map]

/-- Two runs of the tidy command on `/w/a.yaml`, which exists: with
`-d --timeout 5s` the context of the one invocation of `tidy` carries five
seconds and the debug marker and the level is set to Info and then Debug;
without flags both invocations get 300 seconds and no debug marker, and the
level is set to Info only. -/
theorem tidy_context_timeout_debug_witness :
    (CommandTidy ⟨false⟩ sampleTidyEnv debugTidyLine).trace.filterMap Event.tidyContext =
      [Context.withDebugMode (Context.withPerCommandTimeout Context.background 5000000000)] ∧
    (CommandTidy ⟨false⟩ sampleTidyEnv debugTidyLine).trace.filterMap Event.level =
      [Level.info, Level.debug] ∧
    (CommandTidy ⟨false⟩ sampleTidyEnv sampleTidyLine).trace.filterMap Event.tidyContext =
      [Context.withPerCommandTimeout Context.background 300000000000,
       Context.withPerCommandTimeout Context.background 300000000000] ∧
    (CommandTidy ⟨false⟩ sampleTidyEnv sampleTidyLine).trace.filterMap Event.level =
      [Level.info] ∧
    ((Context.withDebugMode
        (Context.withPerCommandTimeout Context.background 5000000000)).perCommandTimeout =
        some (flagDuration (Second * 300) (debugTidyLine.given "timeout" "t")) ∧
      ((Context.withDebugMode
        (Context.withPerCommandTimeout Context.background 5000000000)).isDebugMode = true ↔
        debugTidyLine.boolGiven "debug" "d" = true)) :=
  ⟨by decide, by decide, by decide, by decide,
    (tidy_context_timeout_debug ⟨false⟩ sampleTidyEnv debugTidyLine).1
      (Event.tidyCall
        (Context.withDebugMode (Context.withPerCommandTimeout Context.background 5000000000))
        (some 0) "/w/a.yaml")
      (by decide)
      (Context.withDebugMode (Context.withPerCommandTimeout Context.background 5000000000)) rfl⟩

end PowerProto
